import Mathlib

/-!
Shallow embedding of the commit-synchronization core of `probot-app-usync`
(`src/lib/sync/commits.js`), together with theorems settling the claims about
it.  JavaScript strings are modelled as Lean `String`s (manipulated through
their `List Char` contents where the source uses character-level operations),
JS objects used as string-keyed maps are modelled as insertion-ordered
association lists, and the asynchronous GitHub API is modelled as a record of
functions returning `Except HErr _`.  Loops are embedded with explicit fuel
(always called with enough fuel for the loop to run to completion), so every
definition is executable by `rfl`/`decide`.
-/

set_option autoImplicit false

deriving instance DecidableEq for Except

namespace USync

/-! ### JS-style string and map primitives -/

/-- `String.prototype.split(sep)` for a one-character separator, on the
character list.  `splitChar c l` never returns `[]` (like JS `split`). -/
def splitChar (c : Char) : List Char → List (List Char)
  | [] => [[]]
  | x :: xs =>
    if x = c then [] :: splitChar c xs
    else
      match splitChar c xs with
      | [] => [[x]]
      | g :: gs => (x :: g) :: gs

/-- JS `String.prototype.trim` (on the character list): drop whitespace from
both ends. -/
def trimChars (l : List Char) : List Char :=
  ((l.dropWhile Char.isWhitespace).reverse.dropWhile Char.isWhitespace).reverse

/-- Insertion-ordered string-keyed map, as JS objects behave: assigning to an
existing key overwrites in place, a new key is appended at the end. -/
def setKey {α : Type} (m : List (String × α)) (k : String) (v : α) :
    List (String × α) :=
  if m.any (fun p => p.1 == k) then
    m.map (fun p => if p.1 == k then (k, v) else p)
  else m ++ [(k, v)]

/-- `delete obj[k]` on the JS-object model. -/
def delKey {α : Type} (m : List (String × α)) (k : String) : List (String × α) :=
  m.filter (fun p => ¬(p.1 == k))

/-- `obj[k]` on the JS-object model (`none` for a missing key). -/
def lookupKey {α : Type} (m : List (String × α)) (k : String) : Option α :=
  (m.find? (fun p => p.1 == k)).map (fun p => p.2)

/-- JS `Array.prototype.slice(n)` with a possibly negative start index. -/
def jsSlice {α : Type} (l : List α) (n : Int) : List α :=
  if 0 ≤ n then l.drop n.toNat else l.drop (((l.length : Int) + n).toNat)

/-- JS `String.prototype.startsWith` (on the character lists, so that it is
kernel-reducible). -/
def jsStartsWith (s pat : String) : Bool :=
  pat.data.isPrefixOf s.data

/-- JS `String.prototype.slice(n)` for a nonnegative start (on the character
list). -/
def jsDropChars (s : String) (n : Nat) : String :=
  ⟨s.data.drop n⟩

/-- Occurrence scan underlying `includes`/`replace`. -/
def containsSub : List Char → List Char → Bool
  | l, pat =>
    if pat.isPrefixOf l then true
    else
      match l with
      | [] => false
      | _ :: rest => containsSub rest pat

/-- JS `String.prototype.includes`. -/
def jsIncludes (s pat : String) : Bool :=
  containsSub s.data pat.data

/-- Replace the first (leftmost) occurrence of `pat`. -/
def replaceFirstList (pat rep : List Char) : List Char → List Char
  | [] => if pat.isPrefixOf [] then rep else []
  | c :: rest =>
    if pat.isPrefixOf (c :: rest) then rep ++ (c :: rest).drop pat.length
    else c :: replaceFirstList pat rep rest

/-- JS `String.prototype.replace` with a *string* pattern: replaces only the
first occurrence. -/
def jsReplaceFirst (s pat rep : String) : String :=
  ⟨replaceFirstList pat.data rep.data s.data⟩

/-! ### Commit metadata codec (`parseCommitMeta`, `stripCommitMeta`,
`getRawCommitTitle`) -/

/-- A value in a parsed `meta:` line.  JS stores either the (nonempty) string
after the first `:` of a `key:value` pair, or the boolean `true` when the
value is missing or empty (`result[key] = value || true`). -/
inductive MetaVal : Type
  | vtrue : MetaVal
  | vstr : String → MetaVal
  deriving DecidableEq, Repr

/-- How JS stringifies a meta value when it is interpolated into a request
path (`true` becomes `"true"`). -/
def MetaVal.toJSString : MetaVal → String
  | .vtrue => "true"
  | .vstr s => s

/-- JS truthiness of `meta[key]` (`undefined` and `''` are falsy). -/
def metaTruthy : Option MetaVal → Bool
  | none => false
  | some .vtrue => true
  | some (.vstr s) => ¬(s == "")

/-- JS `meta[key] === someString` (strict equality against a string: only a
string value can compare equal). -/
def jsEqStr : Option MetaVal → String → Bool
  | some (.vstr s), t => s == t
  | _, _ => false

/-- The characters of `"meta:"`. -/
def metaKeyChars : List Char := ['m', 'e', 't', 'a', ':']

/-- One `key:value` property of a meta line: `const [key, value] =
prop.split(':')`, then `result[key] = value || true`. -/
def metaPropVal (parts : List (List Char)) : MetaVal :=
  match parts.get? 1 with
  | some v => if v = [] then .vtrue else .vstr ⟨v⟩
  | none => .vtrue

/-- The `for (const prop of props)` loop of `parseCommitMeta`: split each
property on `:` and assign `result[key] = value || true`. -/
def parseMetaProps : List (List Char) → List (String × MetaVal) → List (String × MetaVal)
  | [], acc => acc
  | prop :: rest, acc =>
    let parts := splitChar ':' prop
    parseMetaProps rest (setKey acc ⟨parts.headD []⟩ (metaPropVal parts))

/-- `parseCommitMeta(message)`: find the first line starting with `meta:`,
strip the prefix (after trimming), split on `;` and record each `key:value`
pair (bare key or empty value means `true`).  Returns the insertion-ordered
map (`{}` in JS is the empty list here). -/
def parseCommitMeta (message : String) : List (String × MetaVal) :=
  match (splitChar '\n' message.data).find? (fun line => metaKeyChars.isPrefixOf line) with
  | none => []
  | some line => parseMetaProps (splitChar ';' ((trimChars line).drop 5)) []

/-- The regex `/\n\nmeta:/` head pattern of `stripCommitMeta`. -/
def stripPat : List Char := ['\n', '\n', 'm', 'e', 't', 'a', ':']

/-- Scanner for `message.replace(/\n\nmeta:[^\n]*/g, '')`: at each position,
if the pattern `\n\nmeta:` starts here, drop it and the rest of that line
(scanning resumes at the terminating newline, as the regex does); otherwise
keep the character.  `fuel` bounds the scan; it is always called with
`fuel ≥ length` so the fuel never runs out. -/
def stripGo : Nat → List Char → List Char
  | _, [] => []
  | 0, l => l
  | fuel + 1, c :: cs =>
    if stripPat.isPrefixOf (c :: cs) then
      stripGo fuel (((c :: cs).drop 7).dropWhile (fun d => d ≠ '\n'))
    else c :: stripGo fuel cs

/-- `stripCommitMeta(message)`: remove every `\n\nmeta:...` trailer block. -/
def stripCommitMeta (message : String) : String :=
  ⟨stripGo message.data.length message.data⟩

/-- The trailing `` ?\([^)]+\)$`` pull-request-reference stripper of
`getRawCommitTitle`, on one line: if the line ends in `)` and, after the
previous `)` (if any), there is a `(` with at least one character before the
final `)`, cut the line at that `(` (also swallowing one preceding space). -/
def jsStripPRIndicator (line : List Char) : List Char :=
  match line.getLast? with
  | some ')' =>
    let body := line.dropLast
    let segLen := (body.reverse.takeWhile (fun d => d ≠ ')')).length
    let segStart := body.length - segLen
    let seg := body.drop segStart
    match seg.findIdx? (fun d => d = '(') with
    | some p =>
      if p + 1 < seg.length then
        let q := segStart + p
        let cut := if 0 < q ∧ body.get? (q - 1) = some ' ' then q - 1 else q
        body.take cut
      else line
    | none => line
  | _ => line

/-- `getRawCommitTitle(message)`: first line of the commit message with a
trailing ` (#000)`-style pull-request indicator stripped. -/
def getRawCommitTitle (message : String) : String :=
  ⟨jsStripPRIndicator ((splitChar '\n' message.data).headD [])⟩

/-- Modelled from the spec: `encode(existingMessage, {sha, skipSync?})`
appends a line `meta:sha:<sha>[;skipSync]` as a trailing block separated from
the body by a blank line (§4.1, §6).  The `skipSync = false` case is exactly
the inline encoder of `copyCommits`
(`commit.message += '\n\nmeta:sha:' + commitInfo.sha`); no encoder producing
`;skipSync` exists under `src/`. -/
def encodeCommitMeta (message sha : String) (skipSync : Bool) : String :=
  message ++ "\n\nmeta:sha:" ++ sha ++ (if skipSync then ";skipSync" else "")

/-! ### Data model -/

/-- A git tree entry as the core passes it around.  Host-listed entries carry
a `sha`; entries freshly built by the transplant engine carry `content`
instead (the decoded bytes of the fetched file).  Node decodes the base64
content to a JS string; we keep the decoded bytes. -/
structure TreeEntry : Type where
  mode : String
  path : String
  type : String
  sha : Option String := none
  content : Option (List UInt8) := none
  deriving DecidableEq, Repr, Inhabited

/-- One entry of `commitInfo.files` (a file-level change of a commit), with
the base64 `content` fetched by `augmentPRCommits` (empty for removed
files). -/
structure AugFile : Type where
  filename : String
  status : String
  previous_filename : Option String := none
  content : String := ""
  deriving DecidableEq, Repr, Inhabited

/-- A commit author / committer. -/
structure Author : Type where
  name : String := ""
  email : String := ""
  date : String := ""
  deriving DecidableEq, Repr, Inhabited

/-- `commit.tree` as returned by the host: the tree's sha and (once fetched
recursively) its flattened entry listing. -/
structure TreeListing : Type where
  sha : String := ""
  tree : List TreeEntry := []
  deriving DecidableEq, Repr, Inhabited

/-- The `commit` object nested in a host commit response. -/
structure InnerCommit : Type where
  message : String := ""
  author : Author := {}
  committer : Option Author := none
  tree : TreeListing := {}
  deriving DecidableEq, Repr, Inhabited

/-- A host commit response (`res.data` of `GET /repos/:repoName/commits/:sha`
once augmented): sha, nested commit, file-level diff and parent shas. -/
structure CommitInfo : Type where
  sha : String := ""
  commit : InnerCommit := {}
  files : List AugFile := []
  parents : List String := []
  deriving DecidableEq, Repr, Inhabited

/-- `prCommit.mergedCommit`: reference to the second parent of a merge
commit, with its own `shouldSync` flag. -/
structure MergedCommitRef : Type where
  sha : String
  shouldSync : Bool
  deriving DecidableEq, Repr, Inhabited

/-- A PR commit as built by `getPRCommitList`: the quick fields plus the
underlying host data (the JS `_` property, called `und` here). -/
structure PRCommit : Type where
  message : String := ""
  sha : String := ""
  shouldSync : Bool := true
  shouldUseGenericMessage : Bool := false
  mergedCommit : Option MergedCommitRef := none
  und : CommitInfo := {}
  deriving DecidableEq, Repr, Inhabited

/-- The result record of `getCommitsState` (`PRCommitsState`). -/
structure PRCommitsState : Type where
  copySource : Option String
  hasConflict : Bool
  hasMismatch : Bool
  lastCommonPrimaryIndex : Option Nat
  lastCommonSecondaryIndex : Option Nat
  deriving DecidableEq, Repr, Inhabited

/-- `source` option of `copyCommits` (`CopySource`). -/
structure CopySource : Type where
  commits : List PRCommit := []
  lastCommonIndex : Int := -1
  repoName : String := ""
  branch : Option String := none
  subPath : Option String := none
  deriving Repr, Inhabited

/-- `target` option of `copyCommits` (`CopyTarget`). -/
structure CopyTarget : Type where
  branch : String := ""
  commitSha : String := ""
  commitTreeSha : String := ""
  repoName : String := ""
  baseBranch : Option String := none
  subPath : Option String := none
  deriving Repr, Inhabited

/-! ### Tree transplant engine (`copyCommitTree`) -/

/-- The base64 value of one alphabet character (Node ignores characters
outside the alphabet, including padding, when decoding). -/
def b64Val (c : Char) : Option Nat :=
  if 'A' ≤ c ∧ c ≤ 'Z' then some (c.toNat - 65)
  else if 'a' ≤ c ∧ c ≤ 'z' then some (c.toNat - 97 + 26)
  else if '0' ≤ c ∧ c ≤ '9' then some (c.toNat - 48 + 52)
  else if c = '+' then some 62
  else if c = '/' then some 63
  else none

/-- Reassemble decoded 6-bit groups into bytes. -/
def b64Groups : List Nat → List UInt8
  | a :: b :: c :: d :: rest =>
    UInt8.ofNat (a * 4 + b / 16) :: UInt8.ofNat (b % 16 * 16 + c / 4) ::
      UInt8.ofNat (c % 4 * 64 + d) :: b64Groups rest
  | [a, b, c] => [UInt8.ofNat (a * 4 + b / 16), UInt8.ofNat (b % 16 * 16 + c / 4)]
  | [a, b] => [UInt8.ofNat (a * 4 + b / 16)]
  | _ => []

/-- `base64Decode` (from `lib/utils.js`): decode a base64 string to bytes. -/
def base64Decode (s : String) : List UInt8 :=
  b64Groups (s.data.filterMap b64Val)

/-- `keyByProp(entries, 'path')` (just-index): build the path-keyed JS
object. -/
def keyByPath (l : List TreeEntry) : List (String × TreeEntry) :=
  l.foldl (fun acc e => setKey acc e.path e) []

/-- `pick(file, ['mode', 'path', 'sha', 'type'])` on a tree entry (drops any
`content`). -/
def pickMPST (e : TreeEntry) : TreeEntry :=
  { mode := e.mode, path := e.path, type := e.type, sha := e.sha }

/-- Arguments of `copyCommitTree`. -/
structure CopyTreeOpts : Type where
  commitInfo : CommitInfo
  parentTree : List TreeEntry
  source : CopySource
  target : CopyTarget

/-- The `for (const file of commitInfo.files)` loop of `copyCommitTree`,
threading the `newTreeByPath` object.  Errors (`.error`) model the JS
`TypeError` thrown by `pick(undefined, ...)` when a changed file is missing
from the commit's own tree listing. -/
def transplantFiles (source : CopySource) (target : CopyTarget)
    (commitTreeByPath : List (String × TreeEntry)) :
    List AugFile → List (String × TreeEntry) →
    Except String (List (String × TreeEntry))
  | [], acc => .ok acc
  | file :: rest, acc =>
    let origFilename := file.previous_filename.getD file.filename
    let newFilename := file.filename
    -- these represent what each filename is in the target repo; `none` is
    -- the `continue` for files outside of `source.subPath`
    let names : Option (String × String) :=
      match source.subPath with
      | some sp =>
        if ¬ jsStartsWith origFilename (sp ++ "/") then
          -- don't handle files outside of subPath
          none
        else
          -- strip subPath
          some (jsDropChars origFilename (sp.length + 1), jsDropChars newFilename (sp.length + 1))
      | none => some (origFilename, newFilename)
    match names with
    | none => transplantFiles source target commitTreeByPath rest acc
    | some (o1, n1) =>
      let targetOrigFilename :=
        match target.subPath with
        | some tp => tp ++ "/" ++ origFilename
        | none => o1
      let targetNewFilename :=
        match target.subPath with
        | some tp => tp ++ "/" ++ newFilename
        | none => n1
      if file.status == "removed" then
        transplantFiles source target commitTreeByPath rest
          (delKey acc targetOrigFilename)
      else
        match lookupKey commitTreeByPath newFilename with
        | none => .error "pick of undefined tree file"
        | some treeFile =>
          let entry : TreeEntry :=
            { mode := treeFile.mode, path := targetNewFilename,
              type := treeFile.type,
              content := some (base64Decode file.content) }
          transplantFiles source target commitTreeByPath rest
            (setKey acc targetOrigFilename entry)

/-- `copyCommitTree(opts)`: `.ok none` is the JS `return;` (commit has no
files under `source.subPath`); `.ok (some entries)` is the transplanted tree
(`Object.values(newTreeByPath)`). -/
def copyCommitTree (opts : CopyTreeOpts) : Except String (Option (List TreeEntry)) :=
  let commitInfo := opts.commitInfo
  let source := opts.source
  let target := opts.target
  let skip : Bool :=
    match source.subPath with
    | some sp =>
      ¬ commitInfo.files.any (fun file =>
        jsStartsWith (file.previous_filename.getD file.filename) (sp ++ "/"))
    | none => false
  if skip then .ok none
  else
    let commitTreeByPath := keyByPath commitInfo.commit.tree.tree
    let newTreeByPath :=
      keyByPath ((opts.parentTree.filter (fun file => ¬(file.type == "tree"))).map pickMPST)
    match transplantFiles source target commitTreeByPath commitInfo.files newTreeByPath with
    | .error e => .error e
    | .ok m => .ok (some (m.map (fun p => p.2)))

/-! ### Commit reconciliation state machine (`getCommitsState`) -/

/-- The mismatch test of `getCommitsState`, exactly as written in the source:
`(!primaryMeta.sha && !secondaryMeta.sha) || (primaryMeta.sha !==
secondaryCommit.sha && secondaryMeta.sha !== primaryCommit.sha)`. -/
def mismatchCond (pc sc : PRCommit) : Bool :=
  let primarySha := lookupKey (parseCommitMeta pc.message) "sha"
  let secondarySha := lookupKey (parseCommitMeta sc.message) "sha"
  (!metaTruthy primarySha && !metaTruthy secondarySha) ||
    (!jsEqStr primarySha sc.sha && !jsEqStr secondarySha pc.sha)

/-- The spec's characterization of "common" commits: at least one side's
decoded `meta.sha` equals the other side's actual sha. -/
def commitsAreCommon (pc sc : PRCommit) : Bool :=
  jsEqStr (lookupKey (parseCommitMeta pc.message) "sha") sc.sha ||
    jsEqStr (lookupKey (parseCommitMeta sc.message) "sha") pc.sha

/-- The `while` loop of `getCommitsState`, with explicit fuel (the wrapper
passes `p.length + s.length + 1`, which is more than the loop can ever
iterate, so the fuel-exhausted and the unreachable both-cursors-past-the-end
cases never fire). -/
def getCommitsStateGo (p s : List PRCommit) :
    Nat → Nat → Nat → Option Nat → Option Nat → PRCommitsState
  | 0, _, _, lastP, lastS => ⟨none, false, false, lastP, lastS⟩
  | fuel + 1, pIndex, sIndex, lastP, lastS =>
    if pIndex < p.length ∨ sIndex < s.length then
      match p.get? pIndex, s.get? sIndex with
      | some primaryCommit, some secondaryCommit =>
        if ¬ primaryCommit.shouldSync then
          getCommitsStateGo p s fuel (pIndex + 1) sIndex lastP lastS
        else if ¬ secondaryCommit.shouldSync then
          getCommitsStateGo p s fuel pIndex (sIndex + 1) lastP lastS
        else if mismatchCond primaryCommit secondaryCommit then
          -- in the event of a conflict, use primary pr as source of truth
          ⟨some "primary", true, true, lastP, lastS⟩
        else
          -- happy path (commits match)
          getCommitsStateGo p s fuel (pIndex + 1) (sIndex + 1) (some pIndex) (some sIndex)
      | some primaryCommit, none =>
        if ¬ primaryCommit.shouldSync then
          getCommitsStateGo p s fuel (pIndex + 1) sIndex lastP lastS
        else ⟨some "primary", false, true, lastP, lastS⟩
      | none, some secondaryCommit =>
        if ¬ secondaryCommit.shouldSync then
          getCommitsStateGo p s fuel pIndex (sIndex + 1) lastP lastS
        else ⟨some "secondary", false, true, lastP, lastS⟩
      | none, none => ⟨none, false, false, lastP, lastS⟩
    else ⟨none, false, false, lastP, lastS⟩

/-- `getCommitsState(primaryCommits, secondaryCommits)`. -/
def getCommitsState (primaryCommits secondaryCommits : List PRCommit) :
    PRCommitsState :=
  getCommitsStateGo primaryCommits secondaryCommits
    (primaryCommits.length + secondaryCommits.length + 1) 0 0 none none

/-! ### Host interface and cache

The GitHub REST API, as consumed by `commits.js`, modelled as a record of
functions; every call can fail (`Except`), which models a rejected request
(404, rate limit, ...).  The global module cache (`lib/cache.js`) is threaded
explicitly. -/

/-- A host/API error (the JS rejection or thrown `Error` message). -/
abbrev HErr := String

/-- The process-global string cache of `lib/cache.js`. -/
abbrev Cache := List (String × String)

/-- A commit object to be created: the `data` of
`POST /repos/:repoName/git/commits`. -/
structure CommitPayload : Type where
  author : Author
  committer : Option Author
  message : String
  tree : String
  parents : List String
  deriving DecidableEq, Repr

/-- The host (GitHub API) as seen by the sync core. -/
structure Host : Type where
  /-- `GET /repos/:repoName/commits/:sha` -/
  getCommit : String → String → Except HErr CommitInfo
  /-- `GET /repos/:repoName/git/refs/heads/:branchName`, projected through
  `get(res, 'data.object.sha')` (hence the `Option`). -/
  getRefSha : String → String → Except HErr (Option String)
  /-- `POST /repos/:repoName/git/trees`, returning the new tree sha. -/
  createTree : String → List TreeEntry → Except HErr String
  /-- `GET /repos/:repoName/git/trees/:treeSha` with `recursive: 1`. -/
  getTree : String → String → Except HErr (List TreeEntry)
  /-- `POST /repos/:repoName/git/commits`, returning the new commit sha. -/
  createCommit : String → CommitPayload → Except HErr String
  /-- `PATCH /repos/:repoName/git/refs/heads/:branchName`. -/
  updateRef : String → String → Bool → String → Except HErr Unit

/-- `cache.get` (values stored here are commit shas, always nonempty, so the
JS truthiness test coincides with presence). -/
def cacheGet (c : Cache) (k : String) : Option String := lookupKey c k

/-- `cachePartnerCommits(opts)`: record the partner link in both
directions. -/
def cachePartnerCommits (repoName commitSha partnerRepoName partnerCommitSha : String)
    (c : Cache) : Cache :=
  setKey
    (setKey c ("commit-partners." ++ repoName ++ ":" ++ commitSha ++ ":" ++ partnerRepoName)
      partnerCommitSha)
    ("commit-partners." ++ partnerRepoName ++ ":" ++ partnerCommitSha ++ ":" ++ repoName)
    commitSha

/-! ### Commit range fetcher (`getPRCommitList`) -/

/-- The body of the `commits.map(async commit => ...)` of `getPRCommitList`:
wrap one listed PR commit, tag a merge commit with `mergedCommit`, and — when
a `subPath` is given — fetch the full commit and compute `shouldSync` /
`shouldUseGenericMessage` from its file list. -/
def processPRCommit (host : Host) (repoName : String) (subPath : Option String)
    (c : CommitInfo) : Except HErr PRCommit := do
  let base : PRCommit :=
    { und := c, message := c.commit.message, sha := c.sha,
      shouldSync := true, shouldUseGenericMessage := false }
  let st ←
    if c.parents.length == 2 then do
      let mergeCommitSha := c.parents.getD 1 ""
      let md ← host.getCommit repoName mergeCommitSha
      pure ({ base with mergedCommit := some { sha := mergeCommitSha, shouldSync := true } },
        some md)
    else pure (base, none)
  let (base, mergedData) := st
  match subPath with
  | none => pure base
  | some sp => do
    let fullCommit ← host.getCommit repoName c.sha
    -- save the full commit so we don't have to re-request later
    let base := { base with und := fullCommit }
    let base :=
      match base.mergedCommit, mergedData with
      | some mc, some md =>
        if md.files.length ≠ 0 then
          let mc' := { mc with shouldSync := md.files.any (fun f => jsStartsWith f.filename sp) }
          { base with mergedCommit := some mc' }
        else base
      | _, _ => base
    if fullCommit.files.length ≠ 0 then
      let modifiesFilesInSubPath := fullCommit.files.any (fun f => jsStartsWith f.filename sp)
      let modifiesFilesAboveSubPath := fullCommit.files.any (fun f => ¬ jsStartsWith f.filename sp)
      pure { base with
        shouldSync := base.mergedCommit.isNone ||
          (match base.mergedCommit with
           | some mc => mc.shouldSync
           | none => false) ||
          modifiesFilesInSubPath,
        shouldUseGenericMessage := modifiesFilesInSubPath && modifiesFilesAboveSubPath }
    else pure base

/-- `getPRCommitList(pullRequest, subPath)`, given the commits returned by
`GET /repos/:repoName/pulls/:number/commits`. -/
def getPRCommitList (host : Host) (repoName : String) (prCommits : List CommitInfo)
    (subPath : Option String) : Except HErr (List PRCommit) :=
  prCommits.mapM (processPRCommit host repoName subPath)

/-! ### Partner-commit resolver (`getPartnerCommitSha`) -/

/-- Options of `getPartnerCommitSha`; `historyWindow := none` means the JS
default of 50. -/
structure PartnerOpts : Type where
  commitSha : String
  partnerBranch : String
  partnerRepoName : String
  repoName : String
  historyWindow : Option Nat := none
  deriving Repr

/-- Number of iterations of the `for (const index in range(historyWindow -
1))` loop: `historyWindow - 1` for a positive window (just-range of a
negative stop yields `[0]`, hence one iteration for window 0). -/
def partnerWalkIters (historyWindow : Nat) : Nat :=
  if historyWindow == 0 then 1 else historyWindow - 1

/-- The branch-walk loop of `getPartnerCommitSha`: visit `partnerCommitSha`,
match by trailer `meta.sha` (no caching) or by raw title (cached), and follow
the single parent while `index < historyWindow - 2`.  `fuel` is the number of
loop iterations left (`partnerWalkIters historyWindow - index`). -/
def partnerWalk (host : Host) (partnerRepoName repoName commitSha srcMessage : String)
    (historyWindow : Nat) :
    Nat → Nat → String → Cache → Except HErr (Option String × Cache)
  | 0, _, _, cache => .ok (none, cache)
  | fuel + 1, index, partnerCommitSha, cache => do
    let partnerCommit ← host.getCommit partnerRepoName partnerCommitSha
    let partnerCommitMeta := parseCommitMeta partnerCommit.commit.message
    if jsEqStr (lookupKey partnerCommitMeta "sha") commitSha then
      pure (some partnerCommitSha, cache)
    else if getRawCommitTitle srcMessage == getRawCommitTitle partnerCommit.commit.message then
      pure (some partnerCommitSha,
        cachePartnerCommits repoName commitSha partnerRepoName partnerCommitSha cache)
    else if decide ((index : Int) < (historyWindow : Int) - 2) &&
        partnerCommit.parents.length == 1 then
      partnerWalk host partnerRepoName repoName commitSha srcMessage historyWindow fuel
        (index + 1) (partnerCommit.parents.getD 0 "") cache
    else pure (none, cache)

/-- `getPartnerCommitSha(opts)`: cache hit, then the trailer fast path, then
the branch walk.  Returns the found partner sha (or `none`) together with the
updated cache. -/
def getPartnerCommitSha (host : Host) (opts : PartnerOpts) (cache : Cache) :
    Except HErr (Option String × Cache) :=
  let cacheKey := opts.repoName ++ ":" ++ opts.commitSha ++ ":" ++ opts.partnerRepoName
  match cacheGet cache ("commit-partners." ++ cacheKey) with
  | some v => .ok (some v, cache)
  | none => do
    let historyWindow := opts.historyWindow.getD 50
    let commit ← host.getCommit opts.repoName opts.commitSha
    let commitMessage := commit.commit.message
    let commitMeta := parseCommitMeta commitMessage
    let fast ←
      match lookupKey commitMeta "sha" with
      | some v =>
        if metaTruthy (some v) then do
          let partnerCommit ← host.getCommit opts.partnerRepoName v.toJSString
          if getRawCommitTitle commitMessage ==
              getRawCommitTitle partnerCommit.commit.message then
            pure (some partnerCommit.sha)
          else pure none
        else pure none
      | none => pure none
    match fast with
    | some psha =>
      pure (some psha,
        cachePartnerCommits opts.repoName opts.commitSha opts.partnerRepoName psha cache)
    | none => do
      let refSha ← host.getRefSha opts.partnerRepoName opts.partnerBranch
      match refSha with
      | none => pure (none, cache)
      | some partnerCommitSha =>
        partnerWalk host opts.partnerRepoName opts.repoName opts.commitSha commitMessage
          historyWindow (partnerWalkIters historyWindow) 0 partnerCommitSha cache

/-- Modelled from the spec: the fallback search of §4.4, step 2 — "walk
backward from `partnerBranch`'s current head, up to `historyWindow` commits,
following first-parent only (abort the walk at any merge commit with >1
parent), comparing each visited commit's trailer `meta.sha` against
`commitSha` OR its raw title against the original commit's raw title.  First
match wins", with exhaustion yielding NONE.  The first argument of the walk
is the number of commits still allowed to be visited. -/
def specWalk (host : Host) (partnerRepoName commitSha srcMessage : String) :
    Nat → String → Except HErr (Option String)
  | 0, _ => .ok none
  | window + 1, cur => do
    let pc ← host.getCommit partnerRepoName cur
    if jsEqStr (lookupKey (parseCommitMeta pc.commit.message) "sha") commitSha ||
        getRawCommitTitle srcMessage == getRawCommitTitle pc.commit.message then
      pure (some cur)
    else if pc.parents.length == 1 then
      specWalk host partnerRepoName commitSha srcMessage window (pc.parents.getD 0 "")
    else pure none

/-! ### Copy orchestrator (`copyCommits`) -/

/-- A write operation performed against the host, in execution order (reads
are not recorded). -/
inductive WriteOp : Type
  | treeCreated (repoName : String) (tree : List TreeEntry)
  | commitCreated (repoName : String) (payload : CommitPayload)
  | refUpdated (repoName branchName : String) (force : Bool) (sha : String)
  deriving DecidableEq, Repr

/-- Whether a write operation is the branch-ref update. -/
def WriteOp.isRefUpdate : WriteOp → Bool
  | .refUpdated _ _ _ _ => true
  | _ => false

/-- Whether a write operation creates a commit object. -/
def WriteOp.isCommitCreate : WriteOp → Bool
  | .commitCreated _ _ => true
  | _ => false

/-- `commitTree(opts)`: create the tree, re-request its recursive listing,
create the commit; returns the new commit sha and the new tree listing,
prepending the successful writes to the trace. -/
def commitTreeCall (host : Host) (repoName : String) (author : Author)
    (committer : Option Author) (message : String) (parentCommitShas : List String)
    (tree : List TreeEntry) (ops : List WriteOp) :
    List WriteOp × Except HErr (String × List TreeEntry) :=
  match host.createTree repoName tree with
  | .error e => (ops, .error e)
  | .ok treeSha =>
    let ops := ops ++ [.treeCreated repoName tree]
    -- has to re-request new tree since POST response isn't recursive
    match host.getTree repoName treeSha with
    | .error e => (ops, .error e)
    | .ok treeListing =>
      let payload : CommitPayload :=
        { author := author, committer := committer, message := message,
          tree := treeSha, parents := parentCommitShas }
      match host.createCommit repoName payload with
      | .error e => (ops, .error e)
      | .ok commitSha => (ops ++ [.commitCreated repoName payload], .ok (commitSha, treeListing))

/-- The substitute tree used by `copyCommits` when `copyCommitTree` yields
NONE: the unchanged parent tree restricted to non-directory entries
(`parentTree.filter(file => file.type !== 'tree').map(file => pick(file,
['mode', 'path', 'sha', 'type']))`). -/
def fallbackTree (parentTree : List TreeEntry) : List TreeEntry :=
  (parentTree.filter (fun f => ¬(f.type == "tree"))).map pickMPST

/-- The per-merge-commit handling of `copyCommits` (message branch-name
rewrite and partner-parent resolution); returns the possibly rewritten
message, the parent shas of the commit to create, and the updated cache.
`.error` covers both the explicit `throw new Error(...)` sites and host
failures inside `getPartnerCommitSha`. -/
def copyMergeStep (host : Host) (source : CopySource) (target : CopyTarget)
    (allSourceCommits : List PRCommit) (prCommit : PRCommit)
    (parentCommitSha message0 : String) (cache : Cache) :
    Except HErr (String × List String × Cache) :=
  match prCommit.mergedCommit with
  | none => .ok (message0, [parentCommitSha], cache)
  | some mergedCommit =>
    -- replace reference to source branch in commit message if there is one
    let message1 :=
      match source.branch with
      | some br =>
        if jsIncludes message0 br then jsReplaceFirst message0 br target.branch
        else message0
      | none => message0
    if ¬ mergedCommit.shouldSync then .ok (message1, [parentCommitSha], cache)
    else
      match target.baseBranch with
      | none =>
        .error ("'target.baseBranch' option required to copy merge commit: " ++
          prCommit.und.sha)
      | some baseBranch =>
        let shaIsInHeadBranch := allSourceCommits.any (fun c => c.sha == mergedCommit.sha)
        let partnerOpts : PartnerOpts :=
          if shaIsInHeadBranch then
            { commitSha := mergedCommit.sha,
              historyWindow := some allSourceCommits.length,
              partnerBranch := target.branch,
              partnerRepoName := target.repoName,
              repoName := source.repoName }
          else
            { commitSha := mergedCommit.sha,
              partnerBranch := baseBranch,
              partnerRepoName := target.repoName,
              repoName := source.repoName }
        match getPartnerCommitSha host partnerOpts cache with
        | .error e => .error e
        | .ok (some partnerParentSha, cache') =>
          .ok (message1, [parentCommitSha, partnerParentSha], cache')
        | .ok (none, _) =>
          .error ("unable to find partner commit for " ++ source.repoName ++ "#" ++
            mergedCommit.sha)

/-- The `for (const prCommit of sourceCommits)` loop of `copyCommits`:
skip non-syncable commits, transplant the tree (substituting the unchanged
parent tree when the transplant yields NONE), handle merge commits, rewrite
the message, and create the commit, threading the evolving parent
sha/tree/cache and the write trace. -/
def copyLoop (host : Host) (source : CopySource) (target : CopyTarget)
    (includeTraceSha preserveCommitDate stripMeta : Bool)
    (allSourceCommits : List PRCommit) (now : String) :
    List PRCommit → String → List TreeEntry → Cache → List WriteOp →
    List WriteOp × Except HErr (String × Cache)
  | [], parentCommitSha, _, cache, ops => (ops, .ok (parentCommitSha, cache))
  | prCommit :: rest, parentCommitSha, parentTree, cache, ops =>
    if ¬ prCommit.shouldSync then
      copyLoop host source target includeTraceSha preserveCommitDate stripMeta
        allSourceCommits now rest parentCommitSha parentTree cache ops
    else
      let commitInfo := prCommit.und
      match copyCommitTree
          { commitInfo := commitInfo, parentTree := parentTree,
            source := source, target := target } with
      | .error e => (ops, .error e)
      | .ok newTreeOpt =>
        -- it's a weird edge case, but technically this should copy empty commits
        let newTree := newTreeOpt.getD (fallbackTree parentTree)
        match copyMergeStep host source target allSourceCommits prCommit
            parentCommitSha commitInfo.commit.message cache with
        | .error e => (ops, .error e)
        | .ok (message1, parentCommitShas, cache1) =>
          let author :=
            if ¬ preserveCommitDate then { commitInfo.commit.author with date := now }
            else commitInfo.commit.author
          let message2 :=
            if prCommit.mergedCommit.isNone ∧ prCommit.shouldUseGenericMessage then
              "Copy commit from parent repo"
            else message1
          let message3 := if stripMeta then stripCommitMeta message2 else message2
          let message4 :=
            if includeTraceSha then message3 ++ "\n\nmeta:sha:" ++ commitInfo.sha
            else message3
          match commitTreeCall host target.repoName author commitInfo.commit.committer
              message4 parentCommitShas newTree ops with
          | (ops', .error e) => (ops', .error e)
          | (ops', .ok (sha, tree)) =>
            let cache2 :=
              cachePartnerCommits source.repoName prCommit.sha target.repoName sha cache1
            copyLoop host source target includeTraceSha preserveCommitDate stripMeta
              allSourceCommits now rest sha tree cache2 ops'

/-- Options of `copyCommits`. -/
structure CopyOpts : Type where
  source : CopySource
  target : CopyTarget
  forcePush : Bool := false
  includeTraceSha : Bool := false
  preserveCommitDate : Bool := false
  stripMeta : Bool := false
  deriving Repr, Inhabited

/-- `copyCommits(opts)`: slice the source commits past `lastCommonIndex`,
fetch the target tree, run the per-commit loop, and finally update the target
branch ref.  Returns the trace of successful writes together with the overall
outcome (`augmentPRCommits` only fills in host data, so source commits are
taken as already augmented; `now` is the wall clock read by `new Date()`). -/
def copyCommits (host : Host) (opts : CopyOpts) (now : String) (cache : Cache) :
    List WriteOp × Except HErr Unit :=
  let allSourceCommits := opts.source.commits
  let sourceCommits := jsSlice allSourceCommits (opts.source.lastCommonIndex + 1)
  match host.getTree opts.target.repoName opts.target.commitTreeSha with
  | .error e => ([], .error e)
  | .ok targetCommitTree =>
    match copyLoop host opts.source opts.target opts.includeTraceSha
        opts.preserveCommitDate opts.stripMeta allSourceCommits now
        sourceCommits opts.target.commitSha targetCommitTree cache [] with
    | (ops, .error e) => (ops, .error e)
    | (ops, .ok (parentCommitSha, _)) =>
      match host.updateRef opts.target.repoName opts.target.branch opts.forcePush
          parentCommitSha with
      | .error e => (ops, .error e)
      | .ok _ =>
        (ops ++ [.refUpdated opts.target.repoName opts.target.branch opts.forcePush
          parentCommitSha], .ok ())

/-! ### Concrete fixtures used by witnesses and counterexamples -/

/-- A syncable PR commit carrying only a message and a sha (as in the claims'
scenarios). -/
def mkSyncCommit (message sha : String) : PRCommit :=
  { message := message, sha := sha }

/-- Primary list of the matched-histories scenario of C1. -/
def c1Primary : List PRCommit :=
  [mkSyncCommit "foo" "000", mkSyncCommit "foo\n\nmeta:sha:011" "001",
    mkSyncCommit "foo" "002"]

/-- Secondary list of the matched-histories scenario of C1. -/
def c1Secondary : List PRCommit :=
  [mkSyncCommit "foo\n\nmeta:sha:000" "010", mkSyncCommit "foo" "011",
    mkSyncCommit "foo\n\nmeta:sha:002" "012"]

/-- Primary list with one extra un-mirrored commit after a matched pair
(scenario of C7). -/
def c7Primary : List PRCommit :=
  [mkSyncCommit "aaa" "000", mkSyncCommit "extra" "001"]

/-- Secondary list mirroring only the first primary commit (scenario of
C7). -/
def c7Secondary : List PRCommit :=
  [mkSyncCommit "aaa\n\nmeta:sha:000" "010"]

/-- A plain blob entry (fixture). -/
def c8Entry (p : String) : TreeEntry :=
  { mode := "100644", path := p, type := "blob", sha := some "000" }

/-- Transplant of a commit modifying `foo/bar.txt` with
`source.subPath = 'foo'` (fixture of C8). -/
def c8SourceOpts : CopyTreeOpts :=
  { commitInfo :=
      { sha := "c",
        commit := { message := "msg", tree := { tree := [c8Entry "foo/bar.txt"] } },
        files := [{ filename := "foo/bar.txt", status := "modified", content := "" }] },
    parentTree := [c8Entry "bar.txt"],
    source := { subPath := some "foo" },
    target := {} }

/-- Transplant of a commit modifying root-level `bar.txt` with
`target.subPath = 'foo'` (fixture of C8). -/
def c8TargetOpts : CopyTreeOpts :=
  { commitInfo :=
      { sha := "c",
        commit := { message := "msg", tree := { tree := [c8Entry "bar.txt"] } },
        files := [{ filename := "bar.txt", status := "modified", content := "" }] },
    parentTree := [],
    source := {},
    target := { subPath := some "foo" } }

/-- Listing entry of a non-merge commit whose only change is outside the
`foo` subpath (fixture of C2). -/
def c2NonMerge : CommitInfo :=
  { sha := "n1", commit := { message := "nm" }, parents := ["p0"] }

/-- Full commit data of `c2NonMerge`. -/
def c2NonMergeFull : CommitInfo :=
  { sha := "n1", commit := { message := "nm" }, parents := ["p0"],
    files := [{ filename := "bar.txt", status := "modified" }] }

/-- Listing entry of a merge commit (fixture of C2). -/
def c2Merge : CommitInfo :=
  { sha := "m1", commit := { message := "mm" }, parents := ["p0", "q1"] }

/-- Full commit data of `c2Merge`; its own diff is outside the subpath. -/
def c2MergeFull : CommitInfo :=
  { sha := "m1", commit := { message := "mm" }, parents := ["p0", "q1"],
    files := [{ filename := "zzz.txt", status := "modified" }] }

/-- The merged (second) parent of `c2Merge`; also outside the subpath. -/
def c2MergedParent : CommitInfo :=
  { sha := "q1", commit := { message := "qm" }, parents := ["p1"],
    files := [{ filename := "baz.txt", status := "modified" }] }

/-- Host serving the C2 fixtures on repo `R`. -/
def c2Host : Host :=
  { getCommit := fun r s =>
      if r == "R" && s == "n1" then .ok c2NonMergeFull
      else if r == "R" && s == "m1" then .ok c2MergeFull
      else if r == "R" && s == "q1" then .ok c2MergedParent
      else .error "404",
    getRefSha := fun _ _ => .error "unused",
    createTree := fun _ _ => .error "unused",
    getTree := fun _ _ => .error "unused",
    createCommit := fun _ _ => .error "unused",
    updateRef := fun _ _ _ _ => .error "unused" }

/-- A syncable single-parent source commit whose only file lies outside the
`foo` subpath (fixture of C3). -/
def c3Commit : PRCommit :=
  { message := "m1", sha := "s1",
    und := { sha := "s1",
             commit := { message := "m1",
                         author := { name := "a", email := "e", date := "d" },
                         tree := { sha := "ts", tree := [c8Entry "bar.txt"] } },
             files := [{ filename := "bar.txt", status := "modified", content := "" }],
             parents := ["p0"] } }

/-- Host whose write calls all succeed with fixed shas (fixture of C3/C9). -/
def c3Host : Host :=
  { getCommit := fun _ _ => .error "unused",
    getRefSha := fun _ _ => .error "unused",
    createTree := fun _ _ => .ok "T",
    getTree := fun _ _ => .ok [],
    createCommit := fun _ _ => .ok "N",
    updateRef := fun _ _ _ _ => .ok () }

/-- `copyCommits` options copying `c3Commit` from repo `R` (whose content
lives under `foo/`) into repo `P` (fixture of C3/C9). -/
def c3Opts : CopyOpts :=
  { source := { commits := [c3Commit], lastCommonIndex := -1, repoName := "R",
                subPath := some "foo" },
    target := { branch := "tb", commitSha := "tc", commitTreeSha := "tt",
                repoName := "P" },
    includeTraceSha := true, stripMeta := true, preserveCommitDate := true }

/-- Source commit of the C5 fixtures: a plain commit with no meta trailer
(so the resolver's fast path cannot hit). -/
def c5Src : CommitInfo :=
  { sha := "c0", commit := { message := "my title" }, parents := ["z"] }

/-- Sha of the 50th first-parent ancestor of the partner branch head `h`. -/
def chainSha49 : String := ⟨'h' :: List.replicate 49 'x'⟩

/-- The partner repo's linear history: commit `s` has the single parent
`s ++ "x"`; only the 50th commit (sha of length 50) carries a trailer
matching the source sha `c0`. -/
def c5Chain (s : String) : CommitInfo :=
  { sha := s,
    commit := { message := if s.length == 50 then "mm\n\nmeta:sha:c0" else "tt" },
    parents := [s ++ "x"] }

/-- Host of the C5 fixtures: repo `R` holds `c5Src`; repo `P` serves the
linear chain with branch head `h`. -/
def c5Host : Host :=
  { getCommit := fun r s =>
      if r == "R" then (if s == "c0" then .ok c5Src else .error "404")
      else .ok (c5Chain s),
    getRefSha := fun _ _ => .ok (some "h"),
    createTree := fun _ _ => .error "unused",
    getTree := fun _ _ => .error "unused",
    createCommit := fun _ _ => .error "unused",
    updateRef := fun _ _ _ _ => .error "unused" }

/-- Resolver options of the C5 counterexample (default 50-commit window). -/
def c5Opts : PartnerOpts :=
  { commitSha := "c0", partnerBranch := "b", partnerRepoName := "P",
    repoName := "R" }

/-- `c5Opts` with an explicit 3-commit window (used by the C5 witness). -/
def c5Opts3 : PartnerOpts :=
  { c5Opts with historyWindow := some 3 }

/-! ### Helper lemmas -/

theorem mem_setKey {α : Type} {m : List (String × α)} {k : String} {v : α}
    {q : String × α} (hq : q ∈ setKey m k v) : q ∈ m ∨ q = (k, v) := by
  unfold setKey at hq
  split at hq
  · obtain ⟨p, hp, he⟩ := List.mem_map.mp hq
    split at he
    · exact Or.inr he.symm
    · exact Or.inl (he ▸ hp)
  · rcases List.mem_append.mp hq with h | h
    · exact Or.inl h
    · exact Or.inr (List.mem_singleton.mp h)

theorem metaPropVal_ne_empty (parts : List (List Char)) (w : String)
    (h : metaPropVal parts = .vstr w) : w ≠ "" := by
  unfold metaPropVal at h
  split at h
  · rename_i v hv
    split at h
    · exact absurd h (by simp)
    · rename_i hne
      intro hw
      apply hne
      have hsw : (⟨v⟩ : String) = w := by injection h
      have := congrArg String.data hsw
      rw [hw] at this
      simpa using this
  · exact absurd h (by simp)

theorem parseMetaProps_val_ne_empty :
    ∀ (props : List (List Char)) (acc : List (String × MetaVal)),
      (∀ p ∈ acc, ∀ w, p.2 = .vstr w → w ≠ "") →
      ∀ p ∈ parseMetaProps props acc, ∀ w, p.2 = .vstr w → w ≠ ""
  | [], _, hacc => hacc
  | prop :: rest, acc, hacc => by
    refine parseMetaProps_val_ne_empty rest _ ?_
    intro p hp w hw
    rcases mem_setKey hp with h | h
    · exact hacc p h w hw
    · exact metaPropVal_ne_empty _ w (by rw [h] at hw; exact hw)

theorem parseCommitMeta_val_ne_empty (message k v : String)
    (h : lookupKey (parseCommitMeta message) k = some (.vstr v)) : v ≠ "" := by
  have hmem : ∀ p ∈ parseCommitMeta message, ∀ w, p.2 = .vstr w → w ≠ "" := by
    unfold parseCommitMeta
    split
    · simp
    · exact parseMetaProps_val_ne_empty _ [] (by simp)
  unfold lookupKey at h
  cases hf : (parseCommitMeta message).find? (fun p => p.1 == k) with
  | none => rw [hf] at h; simp at h
  | some p =>
    rw [hf] at h
    simp at h
    exact hmem p (List.mem_of_find?_eq_some hf) v h

/-- The source's mismatch test is exactly the negation of the spec's
"common" characterization (thanks to `parseCommitMeta` never producing an
empty string value, the redundant both-trailers-missing disjunct is
subsumed). -/
theorem mismatchCond_eq_not_common (pc sc : PRCommit) :
    mismatchCond pc sc = !commitsAreCommon pc sc := by
  have h1 : ∀ (m x : String), jsEqStr (lookupKey (parseCommitMeta m) "sha") x = true →
      metaTruthy (lookupKey (parseCommitMeta m) "sha") = true := by
    intro m x h
    cases hq : lookupKey (parseCommitMeta m) "sha" with
    | none => rw [hq] at h; simp [jsEqStr] at h
    | some mv =>
      cases mv with
      | vtrue => simp [metaTruthy]
      | vstr v =>
        have hv := parseCommitMeta_val_ne_empty m "sha" v hq
        simp [metaTruthy, hv]
  unfold mismatchCond commitsAreCommon
  cases hEp : jsEqStr (lookupKey (parseCommitMeta pc.message) "sha") sc.sha with
  | true => simp [h1 _ _ hEp, hEp]
  | false =>
    cases hEs : jsEqStr (lookupKey (parseCommitMeta sc.message) "sha") pc.sha with
    | true => simp [h1 _ _ hEs, hEs, hEp]
    | false => simp [hEp, hEs]

/-- Result-shape invariant of the reconciliation loop, for every fuel and
cursor state. -/
theorem getCommitsStateGo_invariant (p s : List PRCommit) :
    ∀ (fuel pIndex sIndex : Nat) (lastP lastS : Option Nat),
      ((getCommitsStateGo p s fuel pIndex sIndex lastP lastS).hasConflict = true →
        (getCommitsStateGo p s fuel pIndex sIndex lastP lastS).hasMismatch = true) ∧
      ((getCommitsStateGo p s fuel pIndex sIndex lastP lastS).copySource.isSome ↔
        (getCommitsStateGo p s fuel pIndex sIndex lastP lastS).hasMismatch = true) := by
  intro fuel
  induction fuel with
  | zero => intro pIndex sIndex lastP lastS; simp [getCommitsStateGo]
  | succ n ih =>
    intro pIndex sIndex lastP lastS
    simp only [getCommitsStateGo]
    split
    · cases hp : p.get? pIndex with
      | some pc =>
        cases hs : s.get? sIndex with
        | some sc =>
          by_cases hpc : pc.shouldSync
          · by_cases hsc : sc.shouldSync
            · by_cases hm : mismatchCond pc sc
              · simp [hpc, hsc, hm]
              · simpa [hpc, hsc, hm] using
                  ih (pIndex + 1) (sIndex + 1) (some pIndex) (some sIndex)
            · simpa [hpc, hsc] using ih pIndex (sIndex + 1) lastP lastS
          · simpa [hpc] using ih (pIndex + 1) sIndex lastP lastS
        | none =>
          by_cases hpc : pc.shouldSync
          · simp [hpc]
          · simpa [hpc] using ih (pIndex + 1) sIndex lastP lastS
      | none =>
        cases hs : s.get? sIndex with
        | some sc =>
          by_cases hsc : sc.shouldSync
          · simp [hsc]
          · simpa [hsc] using ih pIndex (sIndex + 1) lastP lastS
        | none => simp
    · simp

/-- C10: for every pair of input commit lists, the result of
`getCommitsState` satisfies (hasConflict implies hasMismatch) and
(copySource is defined iff hasMismatch). -/
theorem c10_state_invariant (primaryCommits secondaryCommits : List PRCommit) :
    ((getCommitsState primaryCommits secondaryCommits).hasConflict = true →
      (getCommitsState primaryCommits secondaryCommits).hasMismatch = true) ∧
    ((getCommitsState primaryCommits secondaryCommits).copySource.isSome ↔
      (getCommitsState primaryCommits secondaryCommits).hasMismatch = true) :=
  getCommitsStateGo_invariant primaryCommits secondaryCommits _ 0 0 none none

/-- C10 witness: the invariant applied at the conflict scenario. -/
theorem c10_state_invariant_witness :
    (getCommitsState [mkSyncCommit "foo" "000"] [mkSyncCommit "foo" "010"]).hasMismatch
      = true :=
  (c10_state_invariant [mkSyncCommit "foo" "000"] [mkSyncCommit "foo" "010"]).1
    (by decide)

/-- C6: two single-commit syncable lists where neither trailer references the
other commit's sha reconcile to a conflict resolved in favor of the primary
side, with no common indexes. -/
theorem c6_conflict_tie_break (c1 c2 : PRCommit)
    (h1 : c1.shouldSync = true) (h2 : c2.shouldSync = true)
    (hcm : commitsAreCommon c1 c2 = false) :
    getCommitsState [c1] [c2] =
      ⟨some "primary", true, true, none, none⟩ := by
  have hm : mismatchCond c1 c2 = true := by
    rw [mismatchCond_eq_not_common, hcm]; rfl
  simp [getCommitsState, getCommitsStateGo, h1, h2, hm]

/-- C6 witness: the conflict tie-break at two concrete unrelated commits. -/
theorem c6_conflict_tie_break_witness :
    getCommitsState [mkSyncCommit "foo" "000"] [mkSyncCommit "bar" "010"] =
      ⟨some "primary", true, true, none, none⟩ :=
  c6_conflict_tie_break (mkSyncCommit "foo" "000") (mkSyncCommit "bar" "010")
    rfl rfl (by decide)

/-- One-sided-exhaustion lemma of the reconciliation loop, primary side: when
the secondary cursor is past its list and some commit at or after the primary
cursor is syncable, the loop (given enough fuel) reports a mismatch with
`copySource = 'primary'`, no conflict, and the accumulated last-common
indexes. -/
theorem getCommitsStateGo_exhausted_primary (p s : List PRCommit) :
    ∀ (fuel pIndex sIndex : Nat) (lastP lastS : Option Nat),
      s.length ≤ sIndex →
      (p.drop pIndex).any (fun c => c.shouldSync) = true →
      p.length - pIndex < fuel →
      getCommitsStateGo p s fuel pIndex sIndex lastP lastS =
        ⟨some "primary", false, true, lastP, lastS⟩ := by
  intro fuel
  induction fuel with
  | zero =>
    intro pIndex _ _ _ _ hany hfuel
    exact absurd hfuel (by omega)
  | succ n ih =>
    intro pIndex sIndex lastP lastS hs hany hfuel
    have hplt : pIndex < p.length := by
      by_contra hge
      rw [List.drop_eq_nil_of_le (by omega)] at hany
      simp at hany
    have hsnone : s.get? sIndex = none := List.get?_eq_none.mpr hs
    obtain ⟨pc, hpc⟩ : ∃ pc, p.get? pIndex = some pc := by
      cases hg : p.get? pIndex with
      | none => exact absurd (List.get?_eq_none.mp hg) (by omega)
      | some pc => exact ⟨pc, rfl⟩
    have hpc' : p[pIndex] = pc := by
      have h1 : p[pIndex]? = some pc := by rw [← List.get?_eq_getElem?]; exact hpc
      rw [List.getElem?_eq_getElem hplt] at h1
      exact Option.some.inj h1
    have hdrop : p.drop pIndex = pc :: p.drop (pIndex + 1) := by
      rw [List.drop_eq_getElem_cons hplt, hpc']
    rw [hdrop] at hany
    simp only [List.any_cons, Bool.or_eq_true] at hany
    simp only [getCommitsStateGo]
    rw [if_pos (Or.inl hplt), hpc, hsnone]
    by_cases hsync : pc.shouldSync
    · simp [hsync]
    · have hrest : (p.drop (pIndex + 1)).any (fun c => c.shouldSync) = true := by
        rcases hany with h | h
        · exact absurd h hsync
        · exact h
      simp only [hsync, not_false_eq_true, if_true]
      exact ih (pIndex + 1) sIndex lastP lastS hs hrest (by omega)

/-- One-sided-exhaustion lemma of the reconciliation loop, secondary side. -/
theorem getCommitsStateGo_exhausted_secondary (p s : List PRCommit) :
    ∀ (fuel pIndex sIndex : Nat) (lastP lastS : Option Nat),
      p.length ≤ pIndex →
      (s.drop sIndex).any (fun c => c.shouldSync) = true →
      s.length - sIndex < fuel →
      getCommitsStateGo p s fuel pIndex sIndex lastP lastS =
        ⟨some "secondary", false, true, lastP, lastS⟩ := by
  intro fuel
  induction fuel with
  | zero =>
    intro _ sIndex _ _ _ hany hfuel
    exact absurd hfuel (by omega)
  | succ n ih =>
    intro pIndex sIndex lastP lastS hp hany hfuel
    have hslt : sIndex < s.length := by
      by_contra hge
      rw [List.drop_eq_nil_of_le (by omega)] at hany
      simp at hany
    have hpnone : p.get? pIndex = none := List.get?_eq_none.mpr hp
    obtain ⟨sc, hsc⟩ : ∃ sc, s.get? sIndex = some sc := by
      cases hg : s.get? sIndex with
      | none => exact absurd (List.get?_eq_none.mp hg) (by omega)
      | some sc => exact ⟨sc, rfl⟩
    have hsc' : s[sIndex] = sc := by
      have h1 : s[sIndex]? = some sc := by rw [← List.get?_eq_getElem?]; exact hsc
      rw [List.getElem?_eq_getElem hslt] at h1
      exact Option.some.inj h1
    have hdrop : s.drop sIndex = sc :: s.drop (sIndex + 1) := by
      rw [List.drop_eq_getElem_cons hslt, hsc']
    rw [hdrop] at hany
    simp only [List.any_cons, Bool.or_eq_true] at hany
    simp only [getCommitsStateGo]
    rw [if_pos (Or.inr hslt), hpnone, hsc]
    by_cases hsync : sc.shouldSync
    · simp [hsync]
    · have hrest : (s.drop (sIndex + 1)).any (fun c => c.shouldSync) = true := by
        rcases hany with h | h
        · exact absurd h hsync
        · exact h
      simp only [hsync, not_false_eq_true, if_true]
      exact ih pIndex (sIndex + 1) lastP lastS hp hrest (by omega)

/-- C7: when one side of the loop still has a syncable commit and the other
list is exhausted, the result is a mismatch without conflict, `copySource` is
the side with commits remaining, and the last-common indexes are left at the
last matched pair. -/
theorem c7_one_sided_exhaustion :
    (∀ (p s : List PRCommit) (fuel pIndex sIndex : Nat) (lastP lastS : Option Nat),
      s.length ≤ sIndex →
      (p.drop pIndex).any (fun c => c.shouldSync) = true →
      p.length - pIndex < fuel →
      getCommitsStateGo p s fuel pIndex sIndex lastP lastS =
        ⟨some "primary", false, true, lastP, lastS⟩) ∧
    (∀ (p s : List PRCommit) (fuel pIndex sIndex : Nat) (lastP lastS : Option Nat),
      p.length ≤ pIndex →
      (s.drop sIndex).any (fun c => c.shouldSync) = true →
      s.length - sIndex < fuel →
      getCommitsStateGo p s fuel pIndex sIndex lastP lastS =
        ⟨some "secondary", false, true, lastP, lastS⟩) :=
  ⟨fun p s => getCommitsStateGo_exhausted_primary p s,
   fun p s => getCommitsStateGo_exhausted_secondary p s⟩

/-- C7 witness: the primary-exhaustion case applied at the loop state reached
after the matched prefix of the extra-commit scenario, together with the
whole-function run of that scenario. -/
theorem c7_one_sided_exhaustion_witness :
    getCommitsStateGo c7Primary c7Secondary 2 1 1 (some 0) (some 0) =
      ⟨some "primary", false, true, some 0, some 0⟩ ∧
    getCommitsState c7Primary c7Secondary =
      ⟨some "primary", false, true, some 0, some 0⟩ :=
  ⟨c7_one_sided_exhaustion.1 c7Primary c7Secondary 2 1 1 (some 0) (some 0)
    (by decide) (by decide) (by decide),
   by decide⟩

/-- C1: at a compare step (both cursors on syncable commits) the two commits
are treated as common iff at least one side's decoded `meta.sha` equals the
other side's actual sha — on a match the last-common indexes are set to the
current cursor positions and both cursors advance, otherwise the loop stops;
and the matched-histories scenario yields hasMismatch false with both
last-common indexes 2. -/
theorem c1_compare_match :
    (∀ (p s : List PRCommit) (fuel pIndex sIndex : Nat) (lastP lastS : Option Nat)
        (pc sc : PRCommit),
      p.get? pIndex = some pc → s.get? sIndex = some sc →
      pc.shouldSync = true → sc.shouldSync = true →
      (commitsAreCommon pc sc = true →
        getCommitsStateGo p s (fuel + 1) pIndex sIndex lastP lastS =
          getCommitsStateGo p s fuel (pIndex + 1) (sIndex + 1) (some pIndex) (some sIndex)) ∧
      (commitsAreCommon pc sc = false →
        getCommitsStateGo p s (fuel + 1) pIndex sIndex lastP lastS =
          ⟨some "primary", true, true, lastP, lastS⟩)) ∧
    getCommitsState c1Primary c1Secondary = ⟨none, false, false, some 2, some 2⟩ := by
  constructor
  · intro p s fuel pIndex sIndex lastP lastS pc sc hp hs hpc hsc
    obtain ⟨hplt, -⟩ := List.get?_eq_some.mp hp
    constructor
    · intro hcm
      have hm : mismatchCond pc sc = false := by
        rw [mismatchCond_eq_not_common, hcm]; rfl
      simp only [getCommitsStateGo]
      rw [if_pos (Or.inl hplt), hp, hs]
      simp [hpc, hsc, hm]
    · intro hcm
      have hm : mismatchCond pc sc = true := by
        rw [mismatchCond_eq_not_common, hcm]; rfl
      simp only [getCommitsStateGo]
      rw [if_pos (Or.inl hplt), hp, hs]
      simp [hpc, hsc, hm]
  · decide

/-- C1 witness: the first compare step of the matched-histories scenario is a
match (the secondary commit's trailer references primary sha `000`), so the
loop records indexes (0, 0) and advances both cursors. -/
theorem c1_compare_match_witness :
    getCommitsStateGo c1Primary c1Secondary 7 0 0 none none =
      getCommitsStateGo c1Primary c1Secondary 6 1 1 (some 0) (some 0) :=
  (c1_compare_match.1 c1Primary c1Secondary 6 0 0 none none
    (mkSyncCommit "foo" "000") (mkSyncCommit "foo\n\nmeta:sha:000" "010")
    rfl rfl rfl rfl).1 (by decide)

/-- C8: the subpath stripping law — with `source.subPath = 'foo'` a commit
modifying `foo/bar.txt` transplants to an entry at `bar.txt` (and none at
`foo/bar.txt`); with `target.subPath = 'foo'` a root-level `bar.txt` change
transplants to an entry at `foo/bar.txt`. -/
theorem c8_subpath_stripping_law :
    (∃ entries, copyCommitTree c8SourceOpts = .ok (some entries) ∧
      entries.any (fun e => e.path == "bar.txt") = true ∧
      entries.any (fun e => e.path == "foo/bar.txt") = false) ∧
    (∃ entries, copyCommitTree c8TargetOpts = .ok (some entries) ∧
      entries.any (fun e => e.path == "foo/bar.txt") = true) := by
  exact ⟨⟨[{ mode := "100644", path := "bar.txt", type := "blob", content := some [] }],
      by decide, by decide, by decide⟩,
    ⟨[{ mode := "100644", path := "foo/bar.txt", type := "blob", content := some [] }],
      by decide, by decide⟩⟩

/-- C2 counterexample: a non-merge commit all of whose files lie outside the
subPath `foo` still gets `shouldSync = true` from `getPRCommitList` — the
claim says such a commit gets `shouldSync` false. -/
theorem c2_counterexample :
    (getPRCommitList c2Host "R" [c2NonMerge] (some "foo")).map
        (fun l => l.map (fun pc => pc.shouldSync)) = .ok [true] ∧
    c2NonMergeFull.files.any (fun f => jsStartsWith f.filename "foo") = false := by
  decide

/-- C2 (amended): under a subPath, `shouldSync` is computed only against
merge commits — a non-merge commit always keeps `shouldSync = true`, and a
merge commit gets `shouldSync` from its merged parent's file list and its own
file list (false exactly when both lists are nonempty and neither touches the
subPath). -/
theorem c2_amended_should_sync (host : Host) (repoName sp : String)
    (c full : CommitInfo)
    (hfull : host.getCommit repoName c.sha = .ok full) :
    (c.parents.length ≠ 2 →
      (processPRCommit host repoName (some sp) c).map (fun pc => pc.shouldSync) =
        .ok true) ∧
    (∀ md, c.parents.length = 2 →
      host.getCommit repoName (c.parents.getD 1 "") = .ok md →
      (processPRCommit host repoName (some sp) c).map (fun pc => pc.shouldSync) =
        .ok (if full.files.length = 0 then true
             else (if md.files.length = 0 then true
                   else md.files.any (fun f => jsStartsWith f.filename sp)) ||
                  full.files.any (fun f => jsStartsWith f.filename sp))) := by
  constructor
  · intro hne
    have hb : (c.parents.length == 2) = false := by
      simpa using hne
    simp only [processPRCommit, hb, Bool.false_eq_true, if_false, hfull]
    by_cases h0 : full.files.length = 0
    · simp [h0, Except.map, bind, Except.bind, pure, Except.pure, List.length_eq_zero]
    · simp [h0, Except.map, bind, Except.bind, pure, Except.pure, List.length_eq_zero]
  · intro md heq hmd
    have hb : (c.parents.length == 2) = true := by simpa using heq
    simp only [processPRCommit, hb, if_true, hmd, hfull]
    by_cases h0 : full.files.length = 0
    · by_cases hm0 : md.files.length = 0
      · simp [h0, hm0, Except.map, bind, Except.bind, pure, Except.pure, List.length_eq_zero]
      · simp [h0, hm0, Except.map, bind, Except.bind, pure, Except.pure, List.length_eq_zero]
    · by_cases hm0 : md.files.length = 0
      · simp [h0, hm0, Except.map, bind, Except.bind, pure, Except.pure, List.length_eq_zero]
      · simp [h0, hm0, Except.map, bind, Except.bind, pure, Except.pure, List.length_eq_zero]

/-- C2 witness: the amended characterization applied at the fixture merge
commit (merged parent touches only `baz.txt`, own diff only `zzz.txt`, both
outside `foo`, so `shouldSync` is false). -/
theorem c2_amended_should_sync_witness :
    (processPRCommit c2Host "R" (some "foo") c2Merge).map
      (fun pc => pc.shouldSync) = .ok false := by
  have h := (c2_amended_should_sync c2Host "R" "foo" c2Merge c2MergeFull
    (by decide)).2 c2MergedParent (by decide) (by decide)
  simpa using h

/-- C3 counterexample: for a syncable commit whose files all lie outside
`source.subPath`, `copyCommitTree` does return NONE, but `copyCommits` does
not skip the commit — it creates a commit object for it (one `commitCreated`
write appears in the trace and the run succeeds). -/
theorem c3_counterexample :
    copyCommitTree
        { commitInfo := c3Commit.und, parentTree := [],
          source := c3Opts.source, target := c3Opts.target } = .ok none ∧
    (copyCommits c3Host c3Opts "NOW" []).1.countP WriteOp.isCommitCreate = 1 ∧
    (copyCommits c3Host c3Opts "NOW" []).2 = .ok () := by
  decide

/-- C3 (amended): when `source.subPath` is set and none of the commit's files
lie under `subPath + '/'`, `copyCommitTree` returns NONE; the caller does not
skip such a commit — if its `shouldSync` flag is true, the loop substitutes
the unchanged parent tree (non-directory entries only) and still creates a
commit for it (an empty/no-op commit); only `shouldSync = false` commits are
skipped. -/
theorem c3_amended_empty_commit (host : Host) (source : CopySource)
    (target : CopyTarget) (its pcd sm : Bool) (allSrc : List PRCommit)
    (now : String) (c : PRCommit) (psha : String) (ptree : List TreeEntry)
    (cache : Cache) (sp treeSha newSha : String) (treeListing : List TreeEntry)
    (hsp : source.subPath = some sp)
    (hsync : c.shouldSync = true)
    (hmerge : c.mergedCommit = none)
    (hfiles : c.und.files.any
      (fun file => jsStartsWith (file.previous_filename.getD file.filename)
        (sp ++ "/")) = false)
    (hct : host.createTree target.repoName (fallbackTree ptree) = .ok treeSha)
    (hgt : host.getTree target.repoName treeSha = .ok treeListing)
    (hcc : ∀ pl, host.createCommit target.repoName pl = .ok newSha) :
    copyCommitTree
        { commitInfo := c.und, parentTree := ptree,
          source := source, target := target } = .ok none ∧
    ∃ pl : CommitPayload,
      copyLoop host source target its pcd sm allSrc now [c] psha ptree cache [] =
        ([.treeCreated target.repoName (fallbackTree ptree),
          .commitCreated target.repoName pl],
         .ok (newSha,
           cachePartnerCommits source.repoName c.sha target.repoName newSha cache)) ∧
      pl.tree = treeSha ∧ pl.parents = [psha] := by
  have hnone : copyCommitTree
      { commitInfo := c.und, parentTree := ptree,
        source := source, target := target } = .ok none := by
    simp [copyCommitTree, hsp, hfiles]
  refine ⟨hnone, ?_⟩
  simp only [copyLoop, hsync, not_true_eq_false, Bool.false_eq_true, if_false,
    hnone, copyMergeStep, hmerge, commitTreeCall, hct, hgt, hcc,
    Option.getD_none, Option.isNone_none]
  exact ⟨_, rfl, rfl, rfl⟩

/-- C3 witness: the amended statement applied at the C3 fixture. -/
theorem c3_amended_empty_commit_witness :
    ∃ pl : CommitPayload,
      copyLoop c3Host c3Opts.source c3Opts.target true true true [c3Commit] "NOW"
          [c3Commit] "tc" [] [] [] =
        ([.treeCreated "P" (fallbackTree []), .commitCreated "P" pl],
         .ok ("N", cachePartnerCommits "R" "s1" "P" "N" [])) ∧
      pl.tree = "T" ∧ pl.parents = ["tc"] :=
  (c3_amended_empty_commit c3Host c3Opts.source c3Opts.target true true true
    [c3Commit] "NOW" c3Commit "tc" [] [] "foo" "T" "N" []
    rfl rfl rfl (by decide) rfl rfl (fun _ => rfl)).2

/-- `commitTree` emits only tree/commit creations: it never changes the
number of ref updates in the trace. -/
theorem commitTreeCall_countP_refUpdate (host : Host) (repoName : String)
    (author : Author) (committer : Option Author) (message : String)
    (parentCommitShas : List String) (tree : List TreeEntry) (ops : List WriteOp) :
    (commitTreeCall host repoName author committer message parentCommitShas
        tree ops).1.countP WriteOp.isRefUpdate =
      ops.countP WriteOp.isRefUpdate := by
  unfold commitTreeCall
  cases h1 : host.createTree repoName tree with
  | error e => rfl
  | ok treeSha =>
    cases h2 : host.getTree repoName treeSha with
    | error e =>
      simp [h2, List.countP_append, List.countP_cons, WriteOp.isRefUpdate]
    | ok treeListing =>
      cases h3 : host.createCommit repoName
          { author := author, committer := committer, message := message,
            tree := treeSha, parents := parentCommitShas } with
      | error e =>
        simp [h2, h3, List.countP_append, List.countP_cons, WriteOp.isRefUpdate]
      | ok commitSha =>
        simp [h2, h3, List.countP_append, List.countP_cons, WriteOp.isRefUpdate]

theorem commitTreeCall_fst_countP {host : Host} {repoName : String}
    {author : Author} {committer : Option Author} {message : String}
    {parentCommitShas : List String} {tree : List TreeEntry}
    {ops ops' : List WriteOp} {res : Except HErr (String × List TreeEntry)}
    (h : commitTreeCall host repoName author committer message parentCommitShas
      tree ops = (ops', res)) :
    ops'.countP WriteOp.isRefUpdate = ops.countP WriteOp.isRefUpdate := by
  have h0 := commitTreeCall_countP_refUpdate host repoName author committer
    message parentCommitShas tree ops
  rw [h] at h0
  exact h0

/-- The per-commit loop of `copyCommits` never updates a branch ref. -/
theorem copyLoop_countP_refUpdate (host : Host) (source : CopySource)
    (target : CopyTarget) (its pcd sm : Bool) (allSrc : List PRCommit) (now : String) :
    ∀ (l : List PRCommit) (psha : String) (ptree : List TreeEntry) (cache : Cache)
      (ops : List WriteOp),
      (copyLoop host source target its pcd sm allSrc now l psha ptree cache
          ops).1.countP WriteOp.isRefUpdate =
        ops.countP WriteOp.isRefUpdate := by
  intro l
  induction l with
  | nil => intro psha ptree cache ops; rfl
  | cons c rest ih =>
    intro psha ptree cache ops
    simp only [copyLoop]
    by_cases hsync : c.shouldSync
    · simp only [hsync, not_true_eq_false, Bool.false_eq_true, if_false]
      split
      · rfl
      · split
        · rfl
        · split
          · rename_i heq
            exact commitTreeCall_fst_countP heq
          · rename_i heq
            rw [ih]
            exact commitTreeCall_fst_countP heq
    · simp only [hsync, not_false_eq_true, if_true]
      exact ih psha ptree cache ops

theorem copyLoop_fst_countP {host : Host} {source : CopySource}
    {target : CopyTarget} {its pcd sm : Bool} {allSrc : List PRCommit}
    {now : String} {l : List PRCommit} {psha : String} {ptree : List TreeEntry}
    {cache : Cache} {ops ops' : List WriteOp} {res : Except HErr (String × Cache)}
    (h : copyLoop host source target its pcd sm allSrc now l psha ptree cache ops =
      (ops', res)) :
    ops'.countP WriteOp.isRefUpdate = ops.countP WriteOp.isRefUpdate := by
  have h0 := copyLoop_countP_refUpdate host source target its pcd sm allSrc now
    l psha ptree cache ops
  rw [h] at h0
  exact h0

/-- C9: `copyCommits` updates the target branch ref exactly once, as the very
last write, and only when the whole run succeeds; when any call inside the
run fails the trace carries no ref update at all, so the target branch is
left untouched. -/
theorem c9_ref_update_once (host : Host) (opts : CopyOpts) (now : String)
    (cache : Cache) :
    ((copyCommits host opts now cache).2 = .ok () →
      ∃ ops' sha, (copyCommits host opts now cache).1 =
        ops' ++ [.refUpdated opts.target.repoName opts.target.branch
          opts.forcePush sha] ∧
        ops'.countP WriteOp.isRefUpdate = 0) ∧
    (∀ e, (copyCommits host opts now cache).2 = .error e →
      (copyCommits host opts now cache).1.countP WriteOp.isRefUpdate = 0) := by
  simp only [copyCommits]
  split
  · constructor
    · intro h; simp at h
    · intro e h; simp
  · rename_i targetCommitTree heq
    split
    · rename_i ops0 e heq2
      have hops : ops0.countP WriteOp.isRefUpdate = 0 := by
        simpa using copyLoop_fst_countP heq2
      constructor
      · intro h; simp at h
      · intro e' h; exact hops
    · rename_i ops0 psha cacheR heq2
      have hops : ops0.countP WriteOp.isRefUpdate = 0 := by
        simpa using copyLoop_fst_countP heq2
      split
      · constructor
        · intro h; simp at h
        · intro e' h; exact hops
      · constructor
        · intro _
          exact ⟨ops0, psha, rfl, hops⟩
        · intro e h
          simp at h

/-- C9 witness: on the C3 fixture run (which succeeds) the trace is a prefix
with no ref update followed by exactly one final ref update. -/
theorem c9_ref_update_once_witness :
    ∃ ops' sha, (copyCommits c3Host c3Opts "NOW" []).1 =
      ops' ++ [.refUpdated "P" "tb" false sha] ∧
      ops'.countP WriteOp.isRefUpdate = 0 :=
  (c9_ref_update_once c3Host c3Opts "NOW" []).1 (by decide)

theorem splitChar_ne_nil (c : Char) (l : List Char) : splitChar c l ≠ [] := by
  cases l with
  | nil => simp [splitChar]
  | cons x xs =>
    simp only [splitChar]
    split
    · simp
    · split <;> simp

theorem splitChar_of_not_mem {c : Char} {l : List Char} (h : c ∉ l) :
    splitChar c l = [l] := by
  induction l with
  | nil => rfl
  | cons x xs ih =>
    have hx : ¬ x = c := fun e => h (e ▸ List.mem_cons_self x xs)
    have h' : c ∉ xs := fun hc => h (List.mem_cons_of_mem _ hc)
    simp only [splitChar, if_neg hx]
    rw [ih h']

theorem splitChar_append_cons (c : Char) (a b : List Char) :
    splitChar c (a ++ c :: b) = splitChar c a ++ splitChar c b := by
  induction a with
  | nil => simp [splitChar]
  | cons x xs ih =>
    by_cases hx : x = c
    · subst hx
      simp [splitChar, ih]
    · simp only [List.cons_append, splitChar, if_neg hx, List.append_eq, ih]
      obtain ⟨g, gs, hgs⟩ := List.exists_cons_of_ne_nil (splitChar_ne_nil c xs)
      rw [hgs]
      simp

theorem splitChar_append_of_not_mem {c : Char} {a : List Char} (h : c ∉ a)
    (b : List Char) :
    ∃ g gs, splitChar c b = g :: gs ∧ splitChar c (a ++ b) = (a ++ g) :: gs := by
  induction a with
  | nil =>
    obtain ⟨g, gs, hgs⟩ := List.exists_cons_of_ne_nil (splitChar_ne_nil c b)
    exact ⟨g, gs, hgs, by simpa using hgs⟩
  | cons x xs ih =>
    have hx : ¬ x = c := fun e => h (e ▸ List.mem_cons_self x xs)
    obtain ⟨g, gs, hgs, hab⟩ := ih (fun hc => h (List.mem_cons_of_mem _ hc))
    refine ⟨g, gs, hgs, ?_⟩
    simp only [List.cons_append, splitChar, if_neg hx, List.append_eq, hab]

theorem stripGo_nil (fuel : Nat) : stripGo fuel [] = [] := by
  cases fuel <;> rfl

theorem stripGo_cons_eq (fuel : Nat) (c : Char) (cs : List Char) :
    stripGo (fuel + 1) (c :: cs) =
      if stripPat.isPrefixOf (c :: cs) then
        stripGo fuel (((c :: cs).drop 7).dropWhile (fun d => d ≠ '\n'))
      else c :: stripGo fuel cs := rfl

theorem dropWhile_eq_nil_of_forall {p : Char → Bool} {r : List Char}
    (h : ∀ c ∈ r, p c = true) : r.dropWhile p = [] := by
  induction r with
  | nil => rfl
  | cons x xs ih =>
    rw [List.dropWhile_cons]
    simp only [h x (List.mem_cons_self x xs), if_true]
    exact ih (fun c hc => h c (List.mem_cons_of_mem _ hc))

/-- The scan pattern `\n\nmeta:` cannot begin at or after the last character
of a block `L` that does not contain it: a match starting inside `L` and
spilling into the appended `\n\nmeta:...` trailer is impossible. -/
theorem stripPat_not_prefix {L : List Char} (r : List Char) (hne : L ≠ [])
    (hni : ¬ stripPat <:+: L) :
    stripPat.isPrefixOf (L ++ (stripPat ++ r)) = false := by
  cases hq : stripPat.isPrefixOf (L ++ (stripPat ++ r)) with
  | false => rfl
  | true =>
    exfalso
    have hp : stripPat <+: L ++ (stripPat ++ r) := List.isPrefixOf_iff_prefix.mp hq
    obtain ⟨t, ht⟩ := hp
    by_cases h7 : 7 ≤ L.length
    · apply hni
      have htake : (L ++ (stripPat ++ r)).take 7 = stripPat := by
        rw [← ht, List.take_append_eq_append_take]
        simp [stripPat]
      rw [List.take_append_eq_append_take, Nat.sub_eq_zero_of_le h7] at htake
      simp only [List.take_zero, List.append_nil] at htake
      have hpre : stripPat <+: L := htake ▸ List.take_prefix 7 L
      exact hpre.isInfix
    · push_neg at h7
      have hn1 : 1 ≤ L.length := List.length_pos.mpr hne
      have hget : ∀ i, i < 7 → (L ++ (stripPat ++ r)).get? i = stripPat.get? i := by
        intro i hi
        rw [← ht]
        exact List.get?_append (by simpa [stripPat] using hi)
      have h1 : stripPat.get? L.length = some '\n' := by
        rw [← hget L.length (by omega), List.get?_append_right (le_refl _)]
        simp [stripPat]
      set n := L.length with hn
      interval_cases n
      · -- n = 1: index 2 must also be a newline, but it is 'm'
        have h2 : stripPat.get? 2 = some '\n' := by
          rw [← hget 2 (by omega), List.get?_append_right (by omega), ← hn]
          rfl
        simp [stripPat] at h2
      · simp [stripPat] at h1
      · simp [stripPat] at h1
      · simp [stripPat] at h1
      · simp [stripPat] at h1
      · simp [stripPat] at h1

/-- Scanning a block with no `\n\nmeta:` occurrence followed by a
`\n\nmeta:<line>` trailer removes exactly the trailer. -/
theorem stripGo_append_block :
    ∀ (a : List Char) (fuel : Nat) (r : List Char),
      ¬ stripPat <:+: a →
      (∀ c ∈ r, c ≠ '\n') →
      a.length + 2 ≤ fuel →
      stripGo fuel (a ++ (stripPat ++ r)) = a := by
  intro a
  induction a with
  | nil =>
    intro fuel r _ hr hfuel
    obtain ⟨f, rfl⟩ : ∃ f, fuel = f + 1 := ⟨fuel - 1, by omega⟩
    have hsp : stripPat ++ r =
        '\n' :: ('\n' :: ('m' :: ('e' :: ('t' :: ('a' :: (':' :: r)))))) := rfl
    have hpre : stripPat.isPrefixOf (stripPat ++ r) = true :=
      List.isPrefixOf_iff_prefix.mpr (List.prefix_append _ _)
    rw [List.nil_append, hsp, stripGo_cons_eq, ← hsp]
    rw [hpre]
    simp only [if_true]
    have hdrop7 : (stripPat ++ r).drop 7 = r := rfl
    rw [hdrop7]
    rw [dropWhile_eq_nil_of_forall (fun c hc => by simp [hr c hc])]
    exact stripGo_nil f
  | cons x a' ih =>
    intro fuel r hni hr hfuel
    obtain ⟨f, rfl⟩ : ∃ f, fuel = f + 1 := ⟨fuel - 1, by omega⟩
    have hfalse : stripPat.isPrefixOf ((x :: a') ++ (stripPat ++ r)) = false :=
      stripPat_not_prefix r (by simp) hni
    rw [List.cons_append] at hfalse
    rw [List.cons_append, stripGo_cons_eq, hfalse]
    simp only [Bool.false_eq_true, if_false]
    rw [ih f r (fun h => hni (List.infix_cons h)) hr (by simp at hfuel; omega)]

/-- Any occurrence of `\n\nmeta:` in a character stream produces a line
starting with `meta:`. -/
theorem metaLine_of_stripPat_infix {l : List Char} (h : stripPat <:+: l) :
    ∃ line ∈ splitChar '\n' l, metaKeyChars.isPrefixOf line = true := by
  obtain ⟨s, t, hst⟩ := h
  have hl : l = s ++ ('\n' :: ('\n' :: (metaKeyChars ++ t))) := by
    rw [← hst]
    simp [stripPat, metaKeyChars]
  subst hl
  rw [splitChar_append_cons]
  have hmk : ('\n' : Char) ∉ metaKeyChars := by decide
  obtain ⟨g, gs, hgs, hmg⟩ := splitChar_append_of_not_mem hmk t
  refine ⟨metaKeyChars ++ g, ?_, ?_⟩
  · apply List.mem_append_right
    have : splitChar '\n' ('\n' :: (metaKeyChars ++ t)) =
        [] :: splitChar '\n' (metaKeyChars ++ t) := by
      simp [splitChar]
    rw [this, hmg]
    simp
  · exact List.isPrefixOf_iff_prefix.mpr (List.prefix_append _ _)

/-- A message none of whose lines starts with `meta:` decodes to the empty
meta map. -/
theorem parseCommitMeta_eq_nil {m : String}
    (hm : ∀ line ∈ splitChar '\n' m.data, metaKeyChars.isPrefixOf line = false) :
    parseCommitMeta m = [] := by
  unfold parseCommitMeta
  rw [List.find?_eq_none.mpr (by intro line hline; simp [hm line hline])]

/-- `trim` is the identity on a string with no leading or trailing
whitespace. -/
theorem trimChars_eq_self {l : List Char}
    (hhead : ∀ h ∈ l.head?, h.isWhitespace = false)
    (hlast : ∀ h ∈ l.getLast?, h.isWhitespace = false) :
    trimChars l = l := by
  have step : ∀ (w : List Char), (∀ h ∈ w.head?, h.isWhitespace = false) →
      w.dropWhile Char.isWhitespace = w := by
    intro w hw
    cases w with
    | nil => rfl
    | cons x xs =>
      rw [List.dropWhile_cons]
      simp [hw x (by simp)]
  unfold trimChars
  rw [step l hhead, step l.reverse (by simpa [List.head?_reverse] using hlast),
    List.reverse_reverse]

/-- Characters of the encoded meta line after `meta:`, as used below. -/
theorem sha_colon_decomp (sha : String) :
    ("sha:" : String).data ++ sha.data = ("sha" : String).data ++ (':' :: sha.data) := rfl

theorem splitChar_sha_prop (sha : String) (hcolon : (':' : Char) ∉ sha.data) :
    splitChar ':' (("sha:" : String).data ++ sha.data) =
      [("sha" : String).data, sha.data] := by
  rw [sha_colon_decomp, splitChar_append_cons,
    splitChar_of_not_mem (show (':' : Char) ∉ ("sha" : String).data by decide),
    splitChar_of_not_mem hcolon]
  rfl

theorem metaPropVal_sha (sha : String) (hsha : sha.data ≠ []) :
    metaPropVal [("sha" : String).data, sha.data] = MetaVal.vstr sha := by
  show (if sha.data = [] then MetaVal.vtrue else MetaVal.vstr ⟨sha.data⟩) =
    MetaVal.vstr sha
  rw [if_neg hsha]

theorem parseMetaProps_sha_single (sha : String) (hsha : sha.data ≠ [])
    (hchars : ∀ c ∈ sha.data, c ≠ ':' ∧ c ≠ ';' ∧ c.isWhitespace = false) :
    parseMetaProps [("sha:" : String).data ++ sha.data] [] =
      [("sha", MetaVal.vstr sha)] := by
  have hcolon : (':' : Char) ∉ sha.data := fun hc => (hchars ':' hc).1 rfl
  simp only [parseMetaProps, splitChar_sha_prop sha hcolon, metaPropVal_sha sha hsha]
  simp [setKey]

theorem parseMetaProps_sha_skip (sha : String) (hsha : sha.data ≠ [])
    (hchars : ∀ c ∈ sha.data, c ≠ ':' ∧ c ≠ ';' ∧ c.isWhitespace = false) :
    parseMetaProps [("sha:" : String).data ++ sha.data, ("skipSync" : String).data] [] =
      [("sha", MetaVal.vstr sha), ("skipSync", MetaVal.vtrue)] := by
  have hcolon : (':' : Char) ∉ sha.data := fun hc => (hchars ':' hc).1 rfl
  simp only [parseMetaProps, splitChar_sha_prop sha hcolon, metaPropVal_sha sha hsha,
    splitChar_of_not_mem (show (':' : Char) ∉ ("skipSync" : String).data by decide)]
  simp [setKey]
  rfl

/-- Decoding an encoded message yields exactly the encoded meta record
(assuming the body carries no meta line of its own and the sha is a plain
token free of `:`/`;`/whitespace). -/
theorem parseCommitMeta_encode (m sha : String) (skip : Bool)
    (hm : ∀ line ∈ splitChar '\n' m.data, metaKeyChars.isPrefixOf line = false)
    (hsha : sha ≠ "")
    (hchars : ∀ c ∈ sha.data, c ≠ ':' ∧ c ≠ ';' ∧ c.isWhitespace = false) :
    parseCommitMeta (encodeCommitMeta m sha skip) =
      (if skip then [("sha", MetaVal.vstr sha), ("skipSync", MetaVal.vtrue)]
       else [("sha", MetaVal.vstr sha)]) := by
  have hshaD : sha.data ≠ [] := by
    intro h
    apply hsha
    have : sha = (⟨sha.data⟩ : String) := rfl
    rw [this, h]
  have hshaNoNl : ∀ c ∈ sha.data, c ≠ '\n' := by
    intro c hc he
    have := (hchars c hc).2.2
    rw [he] at this
    exact absurd this (by decide)
  -- the payload after `meta:` and the full meta line
  have hrest :
      ∀ c ∈ ("sha:" : String).data ++
        (sha.data ++ (if skip then (";skipSync" : String).data else [])), c ≠ '\n' := by
    intro c hc
    rcases List.mem_append.mp hc with h | h
    · fin_cases h <;> decide
    · rcases List.mem_append.mp h with h2 | h2
      · exact hshaNoNl c h2
      · cases skip with
        | true => fin_cases h2 <;> decide
        | false => simp at h2
  have hlnNoNl :
      ('\n' : Char) ∉ metaKeyChars ++ (("sha:" : String).data ++
        (sha.data ++ (if skip then (";skipSync" : String).data else []))) := by
    intro hmem
    rcases List.mem_append.mp hmem with h | h
    · exact absurd h (by decide)
    · exact hrest '\n' h rfl
  have hEdata : (encodeCommitMeta m sha skip).data =
      m.data ++ ('\n' :: ('\n' :: (metaKeyChars ++ (("sha:" : String).data ++
        (sha.data ++ (if skip then (";skipSync" : String).data else [])))))) := by
    cases skip <;>
      simp [encodeCommitMeta, String.data_append, metaKeyChars, List.append_assoc]
  have hpl : metaKeyChars.isPrefixOf (metaKeyChars ++ (("sha:" : String).data ++
      (sha.data ++ (if skip then (";skipSync" : String).data else [])))) = true :=
    List.isPrefixOf_iff_prefix.mpr (List.prefix_append _ _)
  have hfind : parseCommitMeta (encodeCommitMeta m sha skip) =
      parseMetaProps (splitChar ';'
        ((trimChars (metaKeyChars ++ (("sha:" : String).data ++
          (sha.data ++ (if skip then (";skipSync" : String).data else []))))).drop 5)) [] := by
    unfold parseCommitMeta
    rw [hEdata, splitChar_append_cons, List.find?_append,
      List.find?_eq_none.mpr (fun line hl => by simp [hm line hl]),
      show splitChar '\n' ('\n' :: (metaKeyChars ++ (("sha:" : String).data ++
        (sha.data ++ (if skip then (";skipSync" : String).data else []))))) =
        [] :: splitChar '\n' (metaKeyChars ++ (("sha:" : String).data ++
          (sha.data ++ (if skip then (";skipSync" : String).data else [])))) from by
        simp [splitChar],
      splitChar_of_not_mem hlnNoNl, Option.none_or,
      List.find?_cons_of_neg _ (by decide),
      List.find?_cons_of_pos _ hpl]
  rw [hfind]
  have htrim : trimChars (metaKeyChars ++ (("sha:" : String).data ++
      (sha.data ++ (if skip then (";skipSync" : String).data else [])))) =
      metaKeyChars ++ (("sha:" : String).data ++
        (sha.data ++ (if skip then (";skipSync" : String).data else []))) := by
    apply trimChars_eq_self
    · intro h hh
      simp [metaKeyChars] at hh
      subst hh
      decide
    · intro h hh
      rw [List.getLast?_append, List.getLast?_append] at hh
      cases skip with
      | true =>
        rw [List.getLast?_append] at hh
        simp at hh
        subst hh
        decide
      | false =>
        rw [List.getLast?_append, List.getLast?_eq_getLast sha.data hshaD] at hh
        simp at hh
        have hws := (hchars _ (List.getLast_mem hshaD)).2.2
        rwa [hh] at hws
  rw [htrim,
    show (metaKeyChars ++ (("sha:" : String).data ++
      (sha.data ++ (if skip then (";skipSync" : String).data else [])))).drop 5 =
      ("sha:" : String).data ++
        (sha.data ++ (if skip then (";skipSync" : String).data else [])) from by
      rw [show 5 = metaKeyChars.length from rfl]
      exact List.drop_left _ _]
  have hnosemi : (';' : Char) ∉ ("sha:" : String).data ++ sha.data := by
    intro hmem
    rcases List.mem_append.mp hmem with h | h
    · exact absurd h (by decide)
    · exact (hchars ';' h).2.1 rfl
  cases skip with
  | false =>
    simp only [if_false, Bool.false_eq_true, List.append_nil]
    rw [splitChar_of_not_mem hnosemi]
    exact parseMetaProps_sha_single sha hshaD hchars
  | true =>
    simp only [if_true]
    rw [show ("sha:" : String).data ++ (sha.data ++ (";skipSync" : String).data) =
        (("sha:" : String).data ++ sha.data) ++ (';' :: ("skipSync" : String).data) from by
        simp [List.append_assoc],
      splitChar_append_cons, splitChar_of_not_mem hnosemi,
      splitChar_of_not_mem (show (';' : Char) ∉ ("skipSync" : String).data by decide)]
    exact parseMetaProps_sha_skip sha hshaD hchars

/-- Stripping an encoded message recovers the original body (assuming the
body carries no meta line of its own and the sha is newline-free). -/
theorem stripCommitMeta_encode (m sha : String) (skip : Bool)
    (hm : ∀ line ∈ splitChar '\n' m.data, metaKeyChars.isPrefixOf line = false)
    (hchars : ∀ c ∈ sha.data, c ≠ ':' ∧ c ≠ ';' ∧ c.isWhitespace = false) :
    stripCommitMeta (encodeCommitMeta m sha skip) = m := by
  have hshaNoNl : ∀ c ∈ sha.data, c ≠ '\n' := by
    intro c hc he
    have := (hchars c hc).2.2
    rw [he] at this
    exact absurd this (by decide)
  have hr : ∀ c ∈ ("sha:" : String).data ++
      (sha.data ++ (if skip then (";skipSync" : String).data else [])), c ≠ '\n' := by
    intro c hc
    rcases List.mem_append.mp hc with h | h
    · fin_cases h <;> decide
    · rcases List.mem_append.mp h with h2 | h2
      · exact hshaNoNl c h2
      · cases skip with
        | true => fin_cases h2 <;> decide
        | false => simp at h2
  have hinf : ¬ stripPat <:+: m.data := by
    intro h
    obtain ⟨line, hmem, hpref⟩ := metaLine_of_stripPat_infix h
    rw [hm line hmem] at hpref
    exact Bool.false_ne_true hpref
  have hEdata : (encodeCommitMeta m sha skip).data =
      m.data ++ (stripPat ++ (("sha:" : String).data ++
        (sha.data ++ (if skip then (";skipSync" : String).data else [])))) := by
    cases skip <;>
      simp [encodeCommitMeta, String.data_append, stripPat, List.append_assoc]
  unfold stripCommitMeta
  rw [hEdata, stripGo_append_block m.data _ _ hinf hr
    (by simp [List.length_append, stripPat])]

/-- C4 (amended): the codec round-trip holds for any body `m` none of whose
lines starts with `meta:` and any nonempty sha free of `:`/`;`/whitespace:
stripping the encoded message recovers `m` exactly, decoding after stripping
yields no meta at all, and decoding the encoded message yields exactly the
encoded record. -/
theorem c4_roundtrip_amended (m sha : String) (skip : Bool)
    (hm : ∀ line ∈ splitChar '\n' m.data, metaKeyChars.isPrefixOf line = false)
    (hsha : sha ≠ "")
    (hchars : ∀ c ∈ sha.data, c ≠ ':' ∧ c ≠ ';' ∧ c.isWhitespace = false) :
    stripCommitMeta (encodeCommitMeta m sha skip) = m ∧
    parseCommitMeta (stripCommitMeta (encodeCommitMeta m sha skip)) = [] ∧
    parseCommitMeta (encodeCommitMeta m sha skip) =
      (if skip then [("sha", MetaVal.vstr sha), ("skipSync", MetaVal.vtrue)]
       else [("sha", MetaVal.vstr sha)]) := by
  have hstrip := stripCommitMeta_encode m sha skip hm hchars
  exact ⟨hstrip, by rw [hstrip]; exact parseCommitMeta_eq_nil hm,
    parseCommitMeta_encode m sha skip hm hsha hchars⟩

/-- C4 witness: the round-trip at the repository's own test fixture. -/
theorem c4_roundtrip_amended_witness :
    stripCommitMeta (encodeCommitMeta "Update some file" "0000000" true) =
      "Update some file" ∧
    parseCommitMeta (stripCommitMeta (encodeCommitMeta "Update some file" "0000000" true)) =
      [] ∧
    parseCommitMeta (encodeCommitMeta "Update some file" "0000000" true) =
      [("sha", MetaVal.vstr "0000000"), ("skipSync", MetaVal.vtrue)] := by
  have h := c4_roundtrip_amended "Update some file" "0000000" true
    (by decide) (by decide) (by decide)
  simpa using h

/-- C4 counterexample: for a body that itself starts with a `meta:` line the
claimed unconditional round-trip fails — stripping does not remove the
body's own meta line (decoding still finds `sha:aaa`), and decoding the
encoded message returns the body's meta, not the encoded one. -/
theorem c4_counterexample :
    parseCommitMeta (stripCommitMeta (encodeCommitMeta "meta:sha:aaa" "bbb" false)) ≠ [] ∧
    parseCommitMeta (encodeCommitMeta "meta:sha:aaa" "bbb" false) ≠
      [("sha", MetaVal.vstr "bbb")] ∧
    stripCommitMeta (encodeCommitMeta "meta:sha:aaa" "bbb" false) = "meta:sha:aaa" ∧
    parseCommitMeta (encodeCommitMeta "meta:sha:aaa" "bbb" false) =
      [("sha", MetaVal.vstr "aaa")] := by
  decide

/-- The branch-walk loop of `getPartnerCommitSha` agrees with the spec's
fallback search run for `partnerWalkIters historyWindow` commits: under the
loop invariant `index + fuel = partnerWalkIters historyWindow`, the advance
guard `index < historyWindow - 2` holds exactly when at least one iteration
remains after the current one. -/
theorem partnerWalk_eq_specWalk (host : Host) (P R cs msg : String) (hw : Nat) :
    ∀ (fuel index : Nat) (start : String) (cache : Cache),
      index + fuel = partnerWalkIters hw →
      (partnerWalk host P R cs msg hw fuel index start cache).map Prod.fst =
        specWalk host P cs msg fuel start := by
  intro fuel
  induction fuel with
  | zero =>
    intro index start cache _
    rfl
  | succ f ih =>
    intro index start cache hinv
    simp only [partnerWalk, specWalk, bind, Except.bind]
    cases hgc : host.getCommit P start with
    | error e => simp [Except.map]
    | ok pc =>
      by_cases hsha :
          jsEqStr (lookupKey (parseCommitMeta pc.commit.message) "sha") cs = true
      · simp [hsha, Except.map, pure, Except.pure]
      · by_cases htitle :
            (getRawCommitTitle msg == getRawCommitTitle pc.commit.message) = true
        · simp [hsha, htitle, Except.map, pure, Except.pure]
        · by_cases hpar : (pc.parents.length == 1) = true
          · cases f with
            | zero =>
              have hc : decide ((index : Int) < (hw : Int) - 2) = false := by
                simp only [decide_eq_false_iff_not]
                simp only [partnerWalkIters, beq_iff_eq] at hinv
                split at hinv <;> omega
              simp [hsha, htitle, hpar, hc, Except.map, pure, Except.pure, specWalk]
            | succ f2 =>
              have hc : decide ((index : Int) < (hw : Int) - 2) = true := by
                simp only [decide_eq_true_eq]
                simp only [partnerWalkIters, beq_iff_eq] at hinv
                split at hinv <;> omega
              have hrec := ih (index + 1) (pc.parents.getD 0 "") cache (by omega)
              simp only [hsha, htitle, hpar, hc]
              simpa using hrec
          · simp [hsha, htitle, hpar, Except.map, pure, Except.pure]

/-- C5 (amended): when the cache misses and the source commit carries no
trailer sha (so the fast path cannot hit), `getPartnerCommitSha` reads the
partner branch head and performs exactly the spec's fallback search — match
each visited commit by trailer `meta.sha` against `commitSha` or by raw
title, first match wins, follow first parents only, abort at any commit with
more than one parent — but for at most `historyWindow - 1` commits (49 with
the default window of 50; one commit when `historyWindow = 0`), not
`historyWindow`. -/
theorem c5_amended_fallback_walk (host : Host) (opts : PartnerOpts) (cache : Cache)
    (commit : CommitInfo) (head : String)
    (hcache : cacheGet cache ("commit-partners." ++ (opts.repoName ++ ":" ++
      opts.commitSha ++ ":" ++ opts.partnerRepoName)) = none)
    (hsrc : host.getCommit opts.repoName opts.commitSha = .ok commit)
    (hnometa : lookupKey (parseCommitMeta commit.commit.message) "sha" = none)
    (href : host.getRefSha opts.partnerRepoName opts.partnerBranch = .ok (some head)) :
    (getPartnerCommitSha host opts cache).map Prod.fst =
      specWalk host opts.partnerRepoName opts.commitSha commit.commit.message
        (partnerWalkIters (opts.historyWindow.getD 50)) head := by
  unfold getPartnerCommitSha
  simp only [hcache, hsrc, hnometa, href, bind, Except.bind, pure, Except.pure]
  exact partnerWalk_eq_specWalk host opts.partnerRepoName opts.repoName opts.commitSha
    commit.commit.message (opts.historyWindow.getD 50)
    (partnerWalkIters (opts.historyWindow.getD 50)) 0 head cache (Nat.zero_add _)

/-- C5 witness: the amended theorem at the C5 fixtures with a 3-commit
window — both the resolver and the spec's 2-commit search come up empty. -/
theorem c5_amended_fallback_walk_witness :
    c5Host.getCommit c5Opts3.repoName c5Opts3.commitSha = .ok c5Src ∧
    (getPartnerCommitSha c5Host c5Opts3 []).map Prod.fst =
      specWalk c5Host c5Opts3.partnerRepoName c5Opts3.commitSha c5Src.commit.message
        (partnerWalkIters (c5Opts3.historyWindow.getD 50)) "h" :=
  ⟨by decide, c5_amended_fallback_walk c5Host c5Opts3 [] c5Src "h"
    (by decide) (by decide) (by decide) (by decide)⟩

/-- C5 counterexample: with the default 50-commit window, a matching commit
at first-parent depth 50 — inside the window the claim describes, as the
spec's own search run for 50 commits finds it — is NOT found by
`getPartnerCommitSha`: the code's walk stops after 49 commits. -/
theorem c5_counterexample :
    (getPartnerCommitSha c5Host c5Opts []).map Prod.fst = .ok none ∧
    specWalk c5Host "P" "c0" "my title" 50 "h" = .ok (some chainSha49) ∧
    c5Opts.historyWindow.getD 50 = 50 := by
  exact ⟨by decide, by decide, rfl⟩

end USync
